import Mathlib

/-!
Verification of the display-atom highlighting engine of `src/filters.cc`
(regex colorizer, tab expander, line-number gutter, selection highlighter).

Buffer positions are modelled as natural numbers indexing into a buffer
modelled as a list of characters.  The `DisplayBuffer` and `DisplayAtom`
primitives (`split`, `insert`, `replace_atom_content`, `atom_containing`)
are not part of the given sources, so they are modelled from the spec
(sections 3 and 4.1); the four filters are translated from `filters.cc`.

Iterator loops of the C++ code become recursions over the atom list: an
iterator into the display buffer becomes the decomposition of the atom
list into the atoms already passed and the suffix starting at the
iterator.  Undefined behaviour of the C++ (dereferencing an end iterator)
and violated preconditions of `split` (which assert in the source) are
made explicit by running the filters in `Except FiltErr`.
-/

namespace Kakoune

/-- Modelled from the spec: the closed enumeration of named colors used by
the filters (section 6: "a small closed enumeration (named colors; ...)").
`Default` is the "unset/inherit" value of section 3. -/
inductive Color
  | Default
  | Black
  | White
  | Red
  | Green
  | Yellow
  | Blue
  | Magenta
  | Cyan
deriving DecidableEq, Repr

/-- Modelled from the spec: the `Underline` attribute bit of the attribute
bit set (section 3: "attributes: bit set (e.g., underline)"). -/
def Underline : Nat := 1

/-- Modelled from the spec, section 3: a Display Atom. `abegin`/`aend` are
the half-open `[begin, end)` buffer range (equal for synthetic zero-width
atoms), `fg`/`bg` the colors, `attr` the attribute bit set, `content` the
optional content override and `splitable` the split permission (false for
synthetic atoms). Display coordinates are rendering-only (out of scope by
section 1) and are not modelled. -/
structure DisplayAtom where
  abegin : Nat
  aend : Nat
  fg : Color
  bg : Color
  attr : Nat
  content : Option (List Char)
  splitable : Bool
deriving DecidableEq, Repr

/-- Modelled from the spec, section 3: a selection, a half-open range
`[begin, end)` of buffer positions. -/
structure Selection where
  sbegin : Nat
  send : Nat
deriving DecidableEq, Repr

/-- Errors of a filter run: a violated `split` precondition (position not
strictly interior, atom not splitable — assertions in the real code),
reaching the `assert(false)` branch of the selection highlighter,
dereferencing an end iterator (undefined behaviour in the real code), and
exhaustion of recursion fuel. -/
inductive FiltErr
  | notInterior
  | notSplitable
  | assertFail
  | deref
  | fuel
deriving DecidableEq, Repr

/-- Modelled from the spec, section 4.1: `split(atom, position)` requires
`position` strictly inside `atom.range` and `atom.splitable`; it replaces
the atom by the two atoms `[begin, position)` and `[position, end)`, each
inheriting the original's style and content override (the override is not
recomputed).  This primitive returns the two replacement atoms; the
iterator bookkeeping of the callers is handled at each call site. -/
def splitAtom (a : DisplayAtom) (p : Nat) : Except FiltErr (DisplayAtom × DisplayAtom) :=
  if a.abegin < p ∧ p < a.aend then
    if a.splitable then
      .ok ({ a with aend := p }, { a with abegin := p })
    else .error .notSplitable
  else .error .notInterior

/-- Modelled from the spec, section 4.1: list-level `split` with the
iterator as an index.  The spec's words say the returned iterator is the
second (right) atom, but every call site in `filters.cc` (the `++` applied
to the result at lines 30, 78 and 122, and the direct underlining of the
result in the selection highlighter) requires it to be the first (left)
atom, which is what is returned here; see the theorems for claim C2. -/
def splitL (atoms : List DisplayAtom) (i p : Nat) :
    Except FiltErr (List DisplayAtom × Nat) :=
  match atoms[i]? with
  | none => .error .deref
  | some a =>
    match splitAtom a p with
    | .error e => .error e
    | .ok (l, r) => .ok (atoms.take i ++ l :: r :: atoms.drop (i + 1), i)

/-- Modelled from the spec, section 4.1: `atom_containing(position, hint)`
scans forward from `hint` and returns the first atom whose range still
reaches past `position`; the result is the index of that atom (the length
of the list when no atom contains the position, i.e. the end iterator). -/
def atom_containing (atoms : List DisplayAtom) (hint pos : Nat) : Nat :=
  hint + ((atoms.drop hint).takeWhile (fun a => a.aend ≤ pos)).length

/-- `setUnderline` is `atom.attribute() |= Attributes::Underline`. -/
def setUnderline (a : DisplayAtom) : DisplayAtom :=
  { a with attr := a.attr ||| Underline }

/-- The partition invariant of a display buffer covering `[p, q)`
(spec section 3, invariants I1-I3): each atom starts where the previous
one ended (zero-width synthetic atoms share this point), ranges are
forward, and the chain runs from `p` to `q`. -/
def chainedB : Nat → List DisplayAtom → Nat → Bool
  | p, [], q => p == q
  | p, a :: rest, q => p == a.abegin && a.abegin ≤ a.aend && chainedB a.aend rest q

/-- The real (non-synthetic, nonzero-width) atoms of a display buffer. -/
def realAtoms (l : List DisplayAtom) : List DisplayAtom :=
  l.filter fun a => a.abegin < a.aend

/-- Real atoms are strictly ordered by begin and pairwise non-overlapping. -/
def realOrdered (l : List DisplayAtom) : Prop :=
  (realAtoms l).Pairwise fun a b => a.abegin < b.abegin ∧ a.aend ≤ b.abegin

/-- The set of buffer positions covered by the atoms of a display buffer
(zero-width synthetic atoms cover nothing). -/
def unionOf (l : List DisplayAtom) : Set Nat :=
  { x | ∃ a ∈ l, a.abegin ≤ x ∧ x < a.aend }

section ChainLemmas

theorem chained_nil {p q : Nat} (h : chainedB p [] q = true) : p = q := by
  simpa [chainedB] using h

theorem chained_cons {p q : Nat} {a : DisplayAtom} {l : List DisplayAtom}
    (h : chainedB p (a :: l) q = true) :
    p = a.abegin ∧ a.abegin ≤ a.aend ∧ chainedB a.aend l q = true := by
  have h := by simpa [chainedB] using h
  exact ⟨h.1.1, h.1.2, h.2⟩

theorem chained_cons_of {p q : Nat} {a : DisplayAtom} {l : List DisplayAtom}
    (h1 : p = a.abegin) (h2 : a.abegin ≤ a.aend) (h3 : chainedB a.aend l q = true) :
    chainedB p (a :: l) q = true := by
  simp [chainedB, h1, h2, h3]

theorem chained_glue {p m q : Nat} :
    ∀ {xs : List DisplayAtom}, chainedB p xs m = true →
    ∀ {ys : List DisplayAtom}, chainedB m ys q = true →
    chainedB p (xs ++ ys) q = true := by
  intro xs
  induction xs generalizing p with
  | nil =>
    intro hxs ys hys
    have := chained_nil hxs
    simpa [this] using hys
  | cons a xs ih =>
    intro hxs ys hys
    obtain ⟨h1, h2, h3⟩ := chained_cons hxs
    exact chained_cons_of h1 h2 (ih h3 hys)

theorem chained_split {p q : Nat} :
    ∀ {xs ys : List DisplayAtom}, chainedB p (xs ++ ys) q = true →
    ∃ m, chainedB p xs m = true ∧ chainedB m ys q = true := by
  intro xs
  induction xs generalizing p with
  | nil =>
    intro ys h
    exact ⟨p, by simp [chainedB], by simpa using h⟩
  | cons a xs ih =>
    intro ys h
    obtain ⟨h1, h2, h3⟩ := chained_cons h
    obtain ⟨m, hm1, hm2⟩ := ih h3
    exact ⟨m, chained_cons_of h1 h2 hm1, hm2⟩

theorem chained_replace {p q : Nat} {α : DisplayAtom} {mid : List DisplayAtom}
    (hmid : chainedB α.abegin mid α.aend = true) :
    ∀ {xs ys : List DisplayAtom}, chainedB p (xs ++ α :: ys) q = true →
    chainedB p (xs ++ mid ++ ys) q = true := by
  intro xs
  induction xs generalizing p with
  | nil =>
    intro ys h
    obtain ⟨h1, _h2, h3⟩ := chained_cons h
    simpa [h1] using chained_glue hmid h3
  | cons a xs ih =>
    intro ys h
    obtain ⟨h1, h2, h3⟩ := chained_cons h
    exact chained_cons_of h1 h2 (ih h3)

theorem chained_le {p q : Nat} :
    ∀ {l : List DisplayAtom}, chainedB p l q = true → p ≤ q := by
  intro l
  induction l generalizing p with
  | nil => intro h; exact le_of_eq (chained_nil h)
  | cons a l ih =>
    intro h
    obtain ⟨h1, h2, h3⟩ := chained_cons h
    exact h1 ▸ le_trans h2 (ih h3)

theorem chained_bounds {p q : Nat} :
    ∀ {l : List DisplayAtom}, chainedB p l q = true →
    ∀ a ∈ l, p ≤ a.abegin ∧ a.abegin ≤ a.aend ∧ a.aend ≤ q := by
  intro l
  induction l generalizing p with
  | nil => intro _ a ha; cases ha
  | cons b l ih =>
    intro h a ha
    obtain ⟨h1, h2, h3⟩ := chained_cons h
    rcases List.mem_cons.mp ha with rfl | ha
    · exact ⟨le_of_eq h1, h2, chained_le h3⟩
    · have := ih h3 a ha
      exact ⟨h1 ▸ le_trans h2 this.1, this.2.1, this.2.2⟩

theorem chained_pairwise {p q : Nat} :
    ∀ {l : List DisplayAtom}, chainedB p l q = true →
    l.Pairwise fun a b => a.aend ≤ b.abegin := by
  intro l
  induction l generalizing p with
  | nil => intro _; exact List.Pairwise.nil
  | cons a l ih =>
    intro h
    obtain ⟨_h1, _h2, h3⟩ := chained_cons h
    refine List.Pairwise.cons ?_ (ih h3)
    intro b hb
    exact (chained_bounds h3 b hb).1

theorem chained_realOrdered {p q : Nat} {l : List DisplayAtom}
    (h : chainedB p l q = true) : realOrdered l := by
  have hpw : (realAtoms l).Pairwise fun a b => a.aend ≤ b.abegin :=
    (chained_pairwise h).filter _
  refine List.Pairwise.imp_of_mem ?_ hpw
  intro a b ha _hb hab
  have hra : a.abegin < a.aend := by
    have := List.of_mem_filter ha
    simpa [decide_eq_true_iff] using this
  exact ⟨lt_of_lt_of_le hra hab, hab⟩

theorem chained_union {p q : Nat} :
    ∀ {l : List DisplayAtom}, chainedB p l q = true →
    unionOf l = Set.Ico p q := by
  intro l
  induction l generalizing p with
  | nil =>
    intro h
    have := chained_nil h
    subst this
    simp [unionOf]
  | cons a l ih =>
    intro h
    obtain ⟨h1, h2, h3⟩ := chained_cons h
    have hq : a.aend ≤ q := chained_le h3
    have hu : unionOf (a :: l) = Set.Ico a.abegin a.aend ∪ unionOf l := by
      ext x
      constructor
      · rintro ⟨b, hb, hx1, hx2⟩
        rcases List.mem_cons.mp hb with rfl | hb
        · exact Or.inl ⟨hx1, hx2⟩
        · exact Or.inr ⟨b, hb, hx1, hx2⟩
      · rintro (⟨hx1, hx2⟩ | ⟨b, hb, hx1, hx2⟩)
        · exact ⟨a, List.mem_cons_self a l, hx1, hx2⟩
        · exact ⟨b, List.mem_cons_of_mem a hb, hx1, hx2⟩
    rw [hu, ih h3, h1]
    exact Set.Ico_union_Ico_eq_Ico h2 hq

theorem chained_getLast {p q : Nat} :
    ∀ {l : List DisplayAtom}, chainedB p l q = true →
    ∀ (h : l ≠ []), (l.getLast h).aend = q := by
  intro l
  induction l generalizing p with
  | nil => intro _ h; exact absurd rfl h
  | cons a l ih =>
    intro hc _h
    obtain ⟨_h1, _h2, h3⟩ := chained_cons hc
    cases l with
    | nil => simpa [List.getLast] using chained_nil h3
    | cons b l => simpa [List.getLast] using ih h3 (by simp)

theorem splitAtom_ok {a : DisplayAtom} {p : Nat} {l r : DisplayAtom}
    (h : splitAtom a p = .ok (l, r)) :
    a.abegin < p ∧ p < a.aend ∧ a.splitable = true ∧
      l = { a with aend := p } ∧ r = { a with abegin := p } := by
  unfold splitAtom at h
  split at h
  · split at h
    · rename_i h1 h2
      refine ⟨h1.1, h1.2, h2, ?_, ?_⟩ <;> cases h <;> rfl
    · cases h
  · cases h

theorem splitAtom_pieces_chained {a : DisplayAtom} {p : Nat} {l r : DisplayAtom}
    (h : splitAtom a p = .ok (l, r)) :
    chainedB a.abegin [l, r] a.aend = true := by
  obtain ⟨h1, h2, _h3, hl, hr⟩ := splitAtom_ok h
  subst hl; subst hr
  simp [chainedB]
  omega

end ChainLemmas

/-- One step of sorting the selections by `begin` (the
`std::sort(..., lhs.begin() < rhs.begin())` call of
`SelectionsHighlighter::operator()`, modelled as insertion sort; ties
between equal begins are ordered deterministically here, where
`std::sort` leaves their order unspecified). -/
def insertSel (s : Selection) : List Selection → List Selection
  | [] => [s]
  | t :: ts => if s.sbegin ≤ t.sbegin then s :: t :: ts else t :: insertSel s ts

/-- The selections sorted by `begin`. -/
def sortSels : List Selection → List Selection
  | [] => []
  | s :: ss => insertSel s (sortSels ss)

theorem mem_insertSel {t s : Selection} :
    ∀ {l : List Selection}, t ∈ insertSel s l ↔ t = s ∨ t ∈ l := by
  intro l
  induction l with
  | nil => simp [insertSel]
  | cons a l ih =>
    by_cases h : s.sbegin ≤ a.sbegin
    · simp [insertSel, h]
    · simp only [insertSel, if_neg h, List.mem_cons, ih]
      tauto

theorem mem_sortSels {t : Selection} :
    ∀ {l : List Selection}, t ∈ sortSels l ↔ t ∈ l := by
  intro l
  induction l with
  | nil => simp [sortSels]
  | cons a l ih => simp [sortSels, mem_insertSel, ih]

theorem insertSel_sorted {s : Selection} :
    ∀ {l : List Selection}, (l.Pairwise fun a b => a.sbegin ≤ b.sbegin) →
    (insertSel s l).Pairwise fun a b => a.sbegin ≤ b.sbegin := by
  intro l
  induction l with
  | nil => intro _; simp [insertSel]
  | cons a l ih =>
    intro h
    rcases List.pairwise_cons.mp h with ⟨ha, hl⟩
    by_cases hc : s.sbegin ≤ a.sbegin
    · rw [insertSel, if_pos hc]
      refine List.pairwise_cons.mpr ⟨?_, h⟩
      intro b hb
      rcases List.mem_cons.mp hb with rfl | hb
      · exact hc
      · exact le_trans hc (ha b hb)
    · rw [insertSel, if_neg hc]
      refine List.pairwise_cons.mpr ⟨?_, ih hl⟩
      intro b hb
      rcases mem_insertSel.mp hb with rfl | hb
      · exact le_of_not_le hc
      · exact ha b hb

theorem sortSels_sorted :
    ∀ {l : List Selection}, (sortSels l).Pairwise fun a b => a.sbegin ≤ b.sbegin := by
  intro l
  induction l with
  | nil => simp [sortSels]
  | cons a l ih => exact insertSel_sorted ih

/-- The classification of the current atom `[ab, ae)` against the current
selection `[sb, se)` into the six cases of the `if`/`else if` chain of
`SelectionsHighlighter::operator()` (lines 177-211); `none` is the final
`else` branch whose body is `assert(false)`. -/
inductive HlCase
  | c1
  | c2
  | c3
  | c4
  | c5
  | c6
deriving DecidableEq, Repr

/-- The condition chain, first match wins, exactly as in the source. -/
def caseOf (a : DisplayAtom) (s : Selection) : Option HlCase :=
  if a.abegin ≥ s.sbegin ∧ a.abegin < s.send ∧ a.aend > s.send then some .c1
  else if a.abegin < s.sbegin ∧ a.aend > s.send then some .c2
  else if a.abegin < s.sbegin ∧ a.aend > s.sbegin then some .c3
  else if a.abegin ≥ s.sbegin ∧ a.aend ≤ s.send then some .c4
  else if a.abegin ≥ s.send then some .c5
  else if a.aend ≤ s.sbegin then some .c6
  else none

theorem caseOf_ne_none (a : DisplayAtom) (s : Selection) : caseOf a s ≠ none := by
  unfold caseOf
  split_ifs with h1 h2 h3 h4 h5 h6 <;> try simp
  omega

/-- The two-pointer sweep of `SelectionsHighlighter::operator()`
(lines 170-214), translated from the source.  The atom list argument is
the suffix of the display buffer starting at `atom_it`; atoms the loop
has moved past are emitted in front of the recursive result.  `split`
returns the left part (see claim C2), so in case 1 the left part is
underlined and the sweep continues on the right part; in case 2 the
middle part is underlined; in case 3 the right part is underlined and the
sweep moves past it.  The first argument is recursion fuel; the wrapper
passes enough for the loop's termination measure (each iteration either
consumes a selection or moves past an atom). -/
def sweep : Nat → List DisplayAtom → List Selection → Except FiltErr (List DisplayAtom)
  | 0, _, _ => .error .fuel
  | _ + 1, atoms, [] => .ok atoms
  | _ + 1, [], _ :: _ => .ok []
  | fuel + 1, a :: rest, s :: sels =>
    match caseOf a s with
    | some .c1 =>
      match splitAtom a s.send with
      | .error e => .error e
      | .ok (l, r) =>
        match sweep fuel (r :: rest) sels with
        | .error e => .error e
        | .ok t => .ok (setUnderline l :: t)
    | some .c2 =>
      match splitAtom a s.sbegin with
      | .error e => .error e
      | .ok (l1, r1) =>
        match splitAtom r1 s.send with
        | .error e => .error e
        | .ok (l2, r2) =>
          match sweep fuel (r2 :: rest) sels with
          | .error e => .error e
          | .ok t => .ok (l1 :: setUnderline l2 :: t)
    | some .c3 =>
      match splitAtom a s.sbegin with
      | .error e => .error e
      | .ok (l, r) =>
        match sweep fuel rest (s :: sels) with
        | .error e => .error e
        | .ok t => .ok (l :: setUnderline r :: t)
    | some .c4 =>
      match sweep fuel rest (s :: sels) with
      | .error e => .error e
      | .ok t => .ok (setUnderline a :: t)
    | some .c5 => sweep fuel (a :: rest) sels
    | some .c6 =>
      match sweep fuel rest (s :: sels) with
      | .error e => .error e
      | .ok t => .ok (a :: t)
    | none => .error .assertFail

/-- `SelectionsHighlighter::operator()`: sort the selections by begin,
then run the sweep over the whole display buffer.  Each loop iteration
decreases the number of remaining atoms plus remaining selections, so the
supplied fuel suffices. -/
def highlight_selections (sels : List Selection) (atoms : List DisplayAtom) :
    Except FiltErr (List DisplayAtom) :=
  sweep (atoms.length + sels.length + 1) atoms (sortSels sels)

theorem setUnderline_abegin (a : DisplayAtom) : (setUnderline a).abegin = a.abegin := rfl

theorem setUnderline_aend (a : DisplayAtom) : (setUnderline a).aend = a.aend := rfl

theorem sweep_chained {hi : Nat} :
    ∀ (fuel : Nat) (atoms : List DisplayAtom) (sels : List Selection) (p : Nat)
      (out : List DisplayAtom),
      chainedB p atoms hi = true → sweep fuel atoms sels = .ok out →
      chainedB p out hi = true := by
  intro fuel
  induction fuel with
  | zero => intro atoms sels p out _ h; simp [sweep] at h
  | succ fuel ih =>
    intro atoms sels p out hch hrun
    cases sels with
    | nil =>
      simp only [sweep, Except.ok.injEq] at hrun
      exact hrun ▸ hch
    | cons s sels =>
      cases atoms with
      | nil =>
        simp only [sweep, Except.ok.injEq] at hrun
        exact hrun ▸ hch
      | cons a rest =>
        obtain ⟨hp, hab, hrest⟩ := chained_cons hch
        rw [sweep] at hrun
        rcases hc : caseOf a s with _ | c
        · simp only [hc] at hrun; cases hrun
        cases c
        case c1 =>
          simp only [hc] at hrun
          cases hsp : splitAtom a s.send with
          | error e => simp only [hsp] at hrun; cases hrun
          | ok lr =>
            obtain ⟨l, r⟩ := lr
            obtain ⟨h1, h2, _h3, hl, hr⟩ := splitAtom_ok hsp
            simp only [hsp] at hrun
            cases hsw : sweep fuel (r :: rest) sels with
            | error e => simp only [hsw] at hrun; cases hrun
            | ok t =>
              simp only [hsw, Except.ok.injEq] at hrun
              subst hrun
              have hrch : chainedB s.send (r :: rest) hi = true := by
                subst hr
                exact chained_cons_of rfl (by simp; omega) hrest
              have ht := ih (r :: rest) sels s.send t hrch hsw
              subst hl
              exact chained_cons_of (by simp [setUnderline, hp]) (by simp [setUnderline]; omega) ht
        case c2 =>
          simp only [hc] at hrun
          cases hsp : splitAtom a s.sbegin with
          | error e => simp only [hsp] at hrun; cases hrun
          | ok lr =>
            obtain ⟨l1, r1⟩ := lr
            obtain ⟨h1, h2, _h3, hl1, hr1⟩ := splitAtom_ok hsp
            simp only [hsp] at hrun
            cases hsp2 : splitAtom r1 s.send with
            | error e => simp only [hsp2] at hrun; cases hrun
            | ok lr2 =>
              obtain ⟨l2, r2⟩ := lr2
              obtain ⟨h4, h5, _h6, hl2, hr2⟩ := splitAtom_ok hsp2
              rw [hr1] at h4 h5
              simp at h4 h5
              simp only [hsp2] at hrun
              cases hsw : sweep fuel (r2 :: rest) sels with
              | error e => simp only [hsw] at hrun; cases hrun
              | ok t =>
                simp only [hsw, Except.ok.injEq] at hrun
                subst hrun
                have hrch : chainedB s.send (r2 :: rest) hi = true := by
                  subst hr2; subst hr1
                  exact chained_cons_of rfl (by simp; omega) hrest
                have ht := ih (r2 :: rest) sels s.send t hrch hsw
                subst hl2
                subst hr1
                subst hl1
                refine chained_cons_of (by simp [hp]) (by simp; omega) ?_
                exact chained_cons_of (by simp [setUnderline]) (by simp [setUnderline]; omega) ht
        case c3 =>
          simp only [hc] at hrun
          cases hsp : splitAtom a s.sbegin with
          | error e => simp only [hsp] at hrun; cases hrun
          | ok lr =>
            obtain ⟨l, r⟩ := lr
            obtain ⟨h1, h2, _h3, hl, hr⟩ := splitAtom_ok hsp
            simp only [hsp] at hrun
            cases hsw : sweep fuel rest (s :: sels) with
            | error e => simp only [hsw] at hrun; cases hrun
            | ok t =>
              simp only [hsw, Except.ok.injEq] at hrun
              subst hrun
              have ht := ih rest (s :: sels) a.aend t hrest hsw
              subst hl
              subst hr
              refine chained_cons_of (by simp [hp]) (by simp; omega) ?_
              exact chained_cons_of (by simp [setUnderline]) (by simp [setUnderline]; omega) ht
        case c4 =>
          simp only [hc] at hrun
          cases hsw : sweep fuel rest (s :: sels) with
          | error e => simp only [hsw] at hrun; cases hrun
          | ok t =>
            simp only [hsw, Except.ok.injEq] at hrun
            subst hrun
            have ht := ih rest (s :: sels) a.aend t hrest hsw
            exact chained_cons_of (by simp [setUnderline, hp]) (by simp [setUnderline]; omega) ht
        case c5 =>
          simp only [hc] at hrun
          exact ih (a :: rest) sels p out hch hrun
        case c6 =>
          simp only [hc] at hrun
          cases hsw : sweep fuel rest (s :: sels) with
          | error e => simp only [hsw] at hrun; cases hrun
          | ok t =>
            simp only [hsw, Except.ok.injEq] at hrun
            subst hrun
            have ht := ih rest (s :: sels) a.aend t hrest hsw
            exact chained_cons_of hp hab ht

theorem splitAtom_error {a : DisplayAtom} {p : Nat} {e : FiltErr}
    (h : splitAtom a p = .error e) : e = .notInterior ∨ e = .notSplitable := by
  unfold splitAtom at h
  split at h
  · split at h
    · cases h
    · injection h with h; exact Or.inr h.symm
  · injection h with h; exact Or.inl h.symm

theorem splitAtom_interior_error {a : DisplayAtom} {p : Nat} {e : FiltErr}
    (h1 : a.abegin < p) (h2 : p < a.aend) (h : splitAtom a p = .error e) :
    e = .notSplitable := by
  unfold splitAtom at h
  rw [if_pos ⟨h1, h2⟩] at h
  split at h
  · cases h
  · injection h with h; exact h.symm

theorem caseOf_c1 {a : DisplayAtom} {s : Selection} (h : caseOf a s = some .c1) :
    s.sbegin ≤ a.abegin ∧ a.abegin < s.send ∧ s.send < a.aend := by
  unfold caseOf at h
  split_ifs at h with h1 h2 h3 h4 h5 h6 <;> simp_all

theorem caseOf_c2 {a : DisplayAtom} {s : Selection} (h : caseOf a s = some .c2) :
    a.abegin < s.sbegin ∧ s.send < a.aend := by
  unfold caseOf at h
  split_ifs at h with h1 h2 h3 h4 h5 h6 <;> simp_all

theorem caseOf_c3 {a : DisplayAtom} {s : Selection} (h : caseOf a s = some .c3) :
    a.abegin < s.sbegin ∧ s.sbegin < a.aend := by
  unfold caseOf at h
  split_ifs at h with h1 h2 h3 h4 h5 h6 <;> simp_all

theorem sweep_noAssert :
    ∀ (fuel : Nat) (atoms : List DisplayAtom) (sels : List Selection),
      sweep fuel atoms sels ≠ .error .assertFail := by
  intro fuel
  induction fuel with
  | zero => intro atoms sels h; simp [sweep] at h
  | succ fuel ih =>
    intro atoms sels hrun
    cases sels with
    | nil => simp [sweep] at hrun
    | cons s sels =>
      cases atoms with
      | nil => simp [sweep] at hrun
      | cons a rest =>
        rw [sweep] at hrun
        rcases hc : caseOf a s with _ | c
        · exact caseOf_ne_none a s hc
        cases c
        case c1 =>
          simp only [hc] at hrun
          cases hsp : splitAtom a s.send with
          | error e =>
            simp only [hsp] at hrun
            injection hrun with he
            rcases splitAtom_error hsp with h | h <;> simp [h] at he
          | ok lr =>
            obtain ⟨l, r⟩ := lr
            simp only [hsp] at hrun
            cases hsw : sweep fuel (r :: rest) sels with
            | error e =>
              simp only [hsw] at hrun
              injection hrun with he
              exact ih (r :: rest) sels (he ▸ hsw)
            | ok t => simp only [hsw] at hrun; cases hrun
        case c2 =>
          simp only [hc] at hrun
          cases hsp : splitAtom a s.sbegin with
          | error e =>
            simp only [hsp] at hrun
            injection hrun with he
            rcases splitAtom_error hsp with h | h <;> simp [h] at he
          | ok lr =>
            obtain ⟨l1, r1⟩ := lr
            simp only [hsp] at hrun
            cases hsp2 : splitAtom r1 s.send with
            | error e =>
              simp only [hsp2] at hrun
              injection hrun with he
              rcases splitAtom_error hsp2 with h | h <;> simp [h] at he
            | ok lr2 =>
              obtain ⟨l2, r2⟩ := lr2
              simp only [hsp2] at hrun
              cases hsw : sweep fuel (r2 :: rest) sels with
              | error e =>
                simp only [hsw] at hrun
                injection hrun with he
                exact ih (r2 :: rest) sels (he ▸ hsw)
              | ok t => simp only [hsw] at hrun; cases hrun
        case c3 =>
          simp only [hc] at hrun
          cases hsp : splitAtom a s.sbegin with
          | error e =>
            simp only [hsp] at hrun
            injection hrun with he
            rcases splitAtom_error hsp with h | h <;> simp [h] at he
          | ok lr =>
            obtain ⟨l, r⟩ := lr
            simp only [hsp] at hrun
            cases hsw : sweep fuel rest (s :: sels) with
            | error e =>
              simp only [hsw] at hrun
              injection hrun with he
              exact ih rest (s :: sels) (he ▸ hsw)
            | ok t => simp only [hsw] at hrun; cases hrun
        case c4 =>
          simp only [hc] at hrun
          cases hsw : sweep fuel rest (s :: sels) with
          | error e =>
            simp only [hsw] at hrun
            injection hrun with he
            exact ih rest (s :: sels) (he ▸ hsw)
          | ok t => simp only [hsw] at hrun; cases hrun
        case c5 =>
          simp only [hc] at hrun
          exact ih (a :: rest) sels hrun
        case c6 =>
          simp only [hc] at hrun
          cases hsw : sweep fuel rest (s :: sels) with
          | error e =>
            simp only [hsw] at hrun
            injection hrun with he
            exact ih rest (s :: sels) (he ▸ hsw)
          | ok t => simp only [hsw] at hrun; cases hrun

theorem sweep_notInterior :
    ∀ (fuel : Nat) (atoms : List DisplayAtom) (sels : List Selection),
      (∀ s ∈ sels, s.sbegin < s.send) →
      sweep fuel atoms sels ≠ .error .notInterior := by
  intro fuel
  induction fuel with
  | zero => intro atoms sels _ h; simp [sweep] at h
  | succ fuel ih =>
    intro atoms sels hne hrun
    cases sels with
    | nil => simp [sweep] at hrun
    | cons s sels =>
      have hs : s.sbegin < s.send := hne s (List.mem_cons_self s sels)
      have hne2 : ∀ t ∈ sels, t.sbegin < t.send :=
        fun t ht => hne t (List.mem_cons_of_mem s ht)
      cases atoms with
      | nil => simp [sweep] at hrun
      | cons a rest =>
        rw [sweep] at hrun
        rcases hc : caseOf a s with _ | c
        · simp only [hc] at hrun; cases hrun
        cases c
        case c1 =>
          obtain ⟨hc1, hc2, hc3⟩ := caseOf_c1 hc
          simp only [hc] at hrun
          cases hsp : splitAtom a s.send with
          | error e =>
            simp only [hsp] at hrun
            injection hrun with he
            have := splitAtom_interior_error hc2 hc3 hsp
            simp [this] at he
          | ok lr =>
            obtain ⟨l, r⟩ := lr
            simp only [hsp] at hrun
            cases hsw : sweep fuel (r :: rest) sels with
            | error e =>
              simp only [hsw] at hrun
              injection hrun with he
              exact ih (r :: rest) sels hne2 (he ▸ hsw)
            | ok t => simp only [hsw] at hrun; cases hrun
        case c2 =>
          obtain ⟨hc1, hc2⟩ := caseOf_c2 hc
          simp only [hc] at hrun
          cases hsp : splitAtom a s.sbegin with
          | error e =>
            simp only [hsp] at hrun
            injection hrun with he
            have := splitAtom_interior_error hc1 (by omega) hsp
            simp [this] at he
          | ok lr =>
            obtain ⟨l1, r1⟩ := lr
            obtain ⟨_, _, _, hl1, hr1⟩ := splitAtom_ok hsp
            simp only [hsp] at hrun
            cases hsp2 : splitAtom r1 s.send with
            | error e =>
              simp only [hsp2] at hrun
              injection hrun with he
              have := splitAtom_interior_error (by rw [hr1]; simpa using hs)
                (by rw [hr1]; simpa using hc2) hsp2
              simp [this] at he
            | ok lr2 =>
              obtain ⟨l2, r2⟩ := lr2
              simp only [hsp2] at hrun
              cases hsw : sweep fuel (r2 :: rest) sels with
              | error e =>
                simp only [hsw] at hrun
                injection hrun with he
                exact ih (r2 :: rest) sels hne2 (he ▸ hsw)
              | ok t => simp only [hsw] at hrun; cases hrun
        case c3 =>
          obtain ⟨hc1, hc2⟩ := caseOf_c3 hc
          simp only [hc] at hrun
          cases hsp : splitAtom a s.sbegin with
          | error e =>
            simp only [hsp] at hrun
            injection hrun with he
            have := splitAtom_interior_error hc1 hc2 hsp
            simp [this] at he
          | ok lr =>
            obtain ⟨l, r⟩ := lr
            simp only [hsp] at hrun
            cases hsw : sweep fuel rest (s :: sels) with
            | error e =>
              simp only [hsw] at hrun
              injection hrun with he
              exact ih rest (s :: sels) hne (he ▸ hsw)
            | ok t => simp only [hsw] at hrun; cases hrun
        case c4 =>
          simp only [hc] at hrun
          cases hsw : sweep fuel rest (s :: sels) with
          | error e =>
            simp only [hsw] at hrun
            injection hrun with he
            exact ih rest (s :: sels) hne (he ▸ hsw)
          | ok t => simp only [hsw] at hrun; cases hrun
        case c5 =>
          simp only [hc] at hrun
          exact ih (a :: rest) sels hne2 hrun
        case c6 =>
          simp only [hc] at hrun
          cases hsw : sweep fuel rest (s :: sels) with
          | error e =>
            simp only [hsw] at hrun
            injection hrun with he
            exact ih rest (s :: sels) hne (he ▸ hsw)
          | ok t => simp only [hsw] at hrun; cases hrun

theorem caseOf_c4 {a : DisplayAtom} {s : Selection} (h : caseOf a s = some .c4) :
    s.sbegin ≤ a.abegin ∧ a.aend ≤ s.send := by
  unfold caseOf at h
  split_ifs at h with h1 h2 h3 h4 h5 h6 <;> simp_all

theorem caseOf_c5 {a : DisplayAtom} {s : Selection} (h : caseOf a s = some .c5) :
    s.send ≤ a.abegin := by
  unfold caseOf at h
  split_ifs at h with h1 h2 h3 h4 h5 h6 <;> simp_all

theorem caseOf_c6 {a : DisplayAtom} {s : Selection} (h : caseOf a s = some .c6) :
    a.aend ≤ s.sbegin := by
  unfold caseOf at h
  split_ifs at h with h1 h2 h3 h4 h5 h6 <;> simp_all

theorem setUnderline_testBit (a : DisplayAtom) :
    (setUnderline a).attr.testBit 0 = true := by
  simp [setUnderline, Underline, Nat.testBit_or]

theorem sweep_cover {hi : Nat} :
    ∀ (fuel : Nat) (atoms : List DisplayAtom) (sels : List Selection) (p : Nat)
      (out : List DisplayAtom),
      chainedB p atoms hi = true →
      (sels.Pairwise fun s t => s.sbegin ≤ t.sbegin) →
      sweep fuel atoms sels = .ok out →
      ∀ x, p ≤ x → x < hi → (∃ s ∈ sels, s.sbegin ≤ x ∧ x < s.send) →
      ∃ b ∈ out, b.abegin ≤ x ∧ x < b.aend ∧ b.attr.testBit 0 = true := by
  intro fuel
  induction fuel with
  | zero => intro atoms sels p out _ _ h; simp [sweep] at h
  | succ fuel ih =>
    intro atoms sels p out hch hsort hrun x hx1 hx2 hx3
    cases sels with
    | nil => obtain ⟨s, hs, _⟩ := hx3; cases hs
    | cons s sels =>
      have hsort2 : sels.Pairwise fun s t => s.sbegin ≤ t.sbegin :=
        (List.pairwise_cons.mp hsort).2
      have hshead : ∀ t ∈ sels, s.sbegin ≤ t.sbegin :=
        (List.pairwise_cons.mp hsort).1
      cases atoms with
      | nil =>
        have := chained_nil hch
        omega
      | cons a rest =>
        obtain ⟨hp, hab, hrest⟩ := chained_cons hch
        rw [sweep] at hrun
        rcases hc : caseOf a s with _ | c
        · simp only [hc] at hrun; cases hrun
        cases c
        case c1 =>
          obtain ⟨hc1, hc2, hc3⟩ := caseOf_c1 hc
          simp only [hc] at hrun
          cases hsp : splitAtom a s.send with
          | error e => simp only [hsp] at hrun; cases hrun
          | ok lr =>
            obtain ⟨l, r⟩ := lr
            obtain ⟨h1, h2, _h3, hl, hr⟩ := splitAtom_ok hsp
            simp only [hsp] at hrun
            cases hsw : sweep fuel (r :: rest) sels with
            | error e => simp only [hsw] at hrun; cases hrun
            | ok t =>
              simp only [hsw, Except.ok.injEq] at hrun
              subst hrun
              by_cases hxse : x < s.send
              · refine ⟨setUnderline l, List.mem_cons_self _ _, ?_, ?_, setUnderline_testBit l⟩
                · subst hl; simp [setUnderline]; omega
                · subst hl; simpa [setUnderline] using hxse
              · have hrch : chainedB s.send (r :: rest) hi = true := by
                  subst hr
                  exact chained_cons_of rfl (by simp; omega) hrest
                have hx3 : ∃ t ∈ sels, t.sbegin ≤ x ∧ x < t.send := by
                  obtain ⟨u, hu, hux⟩ := hx3
                  rcases List.mem_cons.mp hu with rfl | hu
                  · omega
                  · exact ⟨u, hu, hux⟩
                obtain ⟨b, hb, hbx⟩ :=
                  ih (r :: rest) sels s.send t hrch hsort2 hsw x (by omega) hx2 hx3
                exact ⟨b, List.mem_cons_of_mem _ hb, hbx⟩
        case c2 =>
          obtain ⟨hc1, hc2⟩ := caseOf_c2 hc
          simp only [hc] at hrun
          cases hsp : splitAtom a s.sbegin with
          | error e => simp only [hsp] at hrun; cases hrun
          | ok lr =>
            obtain ⟨l1, r1⟩ := lr
            obtain ⟨h1, h2, _h3, hl1, hr1⟩ := splitAtom_ok hsp
            simp only [hsp] at hrun
            cases hsp2 : splitAtom r1 s.send with
            | error e => simp only [hsp2] at hrun; cases hrun
            | ok lr2 =>
              obtain ⟨l2, r2⟩ := lr2
              obtain ⟨h4, h5, _h6, hl2, hr2⟩ := splitAtom_ok hsp2
              rw [hr1] at h4 h5
              simp at h4 h5
              simp only [hsp2] at hrun
              cases hsw : sweep fuel (r2 :: rest) sels with
              | error e => simp only [hsw] at hrun; cases hrun
              | ok t =>
                simp only [hsw, Except.ok.injEq] at hrun
                subst hrun
                by_cases hxsb : x < s.sbegin
                · exfalso
                  obtain ⟨u, hu, hux⟩ := hx3
                  rcases List.mem_cons.mp hu with rfl | hu
                  · omega
                  · have := hshead u hu; omega
                by_cases hxse : x < s.send
                · refine ⟨setUnderline l2, List.mem_cons_of_mem _ (List.mem_cons_self _ _),
                    ?_, ?_, setUnderline_testBit l2⟩
                  · subst hl2; subst hr1; simp [setUnderline]; omega
                  · subst hl2; subst hr1; simpa [setUnderline] using hxse
                · have hrch : chainedB s.send (r2 :: rest) hi = true := by
                    subst hr2; subst hr1
                    exact chained_cons_of rfl (by simp; omega) hrest
                  have hx3 : ∃ u ∈ sels, u.sbegin ≤ x ∧ x < u.send := by
                    obtain ⟨u, hu, hux⟩ := hx3
                    rcases List.mem_cons.mp hu with rfl | hu
                    · omega
                    · exact ⟨u, hu, hux⟩
                  obtain ⟨b, hb, hbx⟩ :=
                    ih (r2 :: rest) sels s.send t hrch hsort2 hsw x (by omega) hx2 hx3
                  exact ⟨b, List.mem_cons_of_mem _ (List.mem_cons_of_mem _ hb), hbx⟩
        case c3 =>
          obtain ⟨hc1, hc2⟩ := caseOf_c3 hc
          simp only [hc] at hrun
          cases hsp : splitAtom a s.sbegin with
          | error e => simp only [hsp] at hrun; cases hrun
          | ok lr =>
            obtain ⟨l, r⟩ := lr
            obtain ⟨h1, h2, _h3, hl, hr⟩ := splitAtom_ok hsp
            simp only [hsp] at hrun
            cases hsw : sweep fuel rest (s :: sels) with
            | error e => simp only [hsw] at hrun; cases hrun
            | ok t =>
              simp only [hsw, Except.ok.injEq] at hrun
              subst hrun
              by_cases hxsb : x < s.sbegin
              · exfalso
                obtain ⟨u, hu, hux⟩ := hx3
                rcases List.mem_cons.mp hu with rfl | hu
                · omega
                · have := hshead u hu; omega
              by_cases hxae : x < a.aend
              · refine ⟨setUnderline r, List.mem_cons_of_mem _ (List.mem_cons_self _ _),
                  ?_, ?_, setUnderline_testBit r⟩
                · subst hr; simp [setUnderline]; omega
                · subst hr; simpa [setUnderline] using hxae
              · obtain ⟨b, hb, hbx⟩ :=
                  ih rest (s :: sels) a.aend t hrest hsort hsw x (by omega) hx2 hx3
                exact ⟨b, List.mem_cons_of_mem _ (List.mem_cons_of_mem _ hb), hbx⟩
        case c4 =>
          simp only [hc] at hrun
          cases hsw : sweep fuel rest (s :: sels) with
          | error e => simp only [hsw] at hrun; cases hrun
          | ok t =>
            simp only [hsw, Except.ok.injEq] at hrun
            subst hrun
            by_cases hxae : x < a.aend
            · exact ⟨setUnderline a, List.mem_cons_self _ _,
                by simpa [setUnderline] using hp ▸ hx1,
                by simpa [setUnderline] using hxae, setUnderline_testBit a⟩
            · obtain ⟨b, hb, hbx⟩ :=
                ih rest (s :: sels) a.aend t hrest hsort hsw x (by omega) hx2 hx3
              exact ⟨b, List.mem_cons_of_mem _ hb, hbx⟩
        case c5 =>
          have hc5 := caseOf_c5 hc
          simp only [hc] at hrun
          have hx3 : ∃ u ∈ sels, u.sbegin ≤ x ∧ x < u.send := by
            obtain ⟨u, hu, hux⟩ := hx3
            rcases List.mem_cons.mp hu with rfl | hu
            · omega
            · exact ⟨u, hu, hux⟩
          exact ih (a :: rest) sels p out hch hsort2 hrun x hx1 hx2 hx3
        case c6 =>
          have hc6 := caseOf_c6 hc
          simp only [hc] at hrun
          cases hsw : sweep fuel rest (s :: sels) with
          | error e => simp only [hsw] at hrun; cases hrun
          | ok t =>
            simp only [hsw, Except.ok.injEq] at hrun
            subst hrun
            by_cases hxae : x < a.aend
            · exfalso
              obtain ⟨u, hu, hux⟩ := hx3
              rcases List.mem_cons.mp hu with rfl | hu
              · omega
              · have := hshead u hu; omega
            · obtain ⟨b, hb, hbx⟩ :=
                ih rest (s :: sels) a.aend t hrest hsort hsw x (by omega) hx2 hx3
              exact ⟨b, List.mem_cons_of_mem _ hb, hbx⟩

/-- A position that is the begin or the end of one of the selections. -/
def selBound (sels : List Selection) (x : Nat) : Prop :=
  ∃ s ∈ sels, x = s.sbegin ∨ x = s.send

theorem selBound_cons {sels : List Selection} {s : Selection} {x : Nat}
    (h : selBound sels x) : selBound (s :: sels) x := by
  obtain ⟨u, hu, hx⟩ := h
  exact ⟨u, List.mem_cons_of_mem s hu, hx⟩

/-- What it means for an output atom `b` to be a correctly styled fragment
of some input atom, split only at selection boundaries. -/
def fragOf (atoms : List DisplayAtom) (sels : List Selection) (b : DisplayAtom) : Prop :=
  ∃ a ∈ atoms, a.abegin ≤ b.abegin ∧ b.aend ≤ a.aend ∧
    b.fg = a.fg ∧ b.bg = a.bg ∧ b.content = a.content ∧
    (b.abegin = a.abegin ∨ selBound sels b.abegin) ∧
    (b.aend = a.aend ∨ selBound sels b.aend)

theorem fragOf_cons_atom {atoms : List DisplayAtom} {sels : List Selection}
    {a b : DisplayAtom} (h : fragOf atoms sels b) : fragOf (a :: atoms) sels b := by
  obtain ⟨u, hu, hx⟩ := h
  exact ⟨u, List.mem_cons_of_mem a hu, hx⟩

theorem fragOf_cons_sel {atoms : List DisplayAtom} {sels : List Selection}
    {s : Selection} {b : DisplayAtom} (h : fragOf atoms sels b) :
    fragOf atoms (s :: sels) b := by
  obtain ⟨u, hu, h1, h2, h3, h4, h5, h6, h7⟩ := h
  refine ⟨u, hu, h1, h2, h3, h4, h5, ?_, ?_⟩
  · rcases h6 with h | h
    · exact Or.inl h
    · exact Or.inr (selBound_cons h)
  · rcases h7 with h | h
    · exact Or.inl h
    · exact Or.inr (selBound_cons h)

theorem fragOf_self {atoms : List DisplayAtom} {sels : List Selection}
    {b : DisplayAtom} (h : b ∈ atoms) : fragOf atoms sels b :=
  ⟨b, h, le_refl _, le_refl _, rfl, rfl, rfl, Or.inl rfl, Or.inl rfl⟩

theorem sweep_frag :
    ∀ (fuel : Nat) (atoms : List DisplayAtom) (sels : List Selection)
      (out : List DisplayAtom),
      sweep fuel atoms sels = .ok out →
      ∀ b ∈ out, fragOf atoms sels b := by
  intro fuel
  induction fuel with
  | zero => intro atoms sels out h; simp [sweep] at h
  | succ fuel ih =>
    intro atoms sels out hrun b hb
    cases sels with
    | nil =>
      simp only [sweep, Except.ok.injEq] at hrun
      exact hrun ▸ fragOf_self (hrun ▸ hb)
    | cons s sels =>
      cases atoms with
      | nil =>
        simp only [sweep, Except.ok.injEq] at hrun
        subst hrun
        cases hb
      | cons a rest =>
        rw [sweep] at hrun
        rcases hc : caseOf a s with _ | c
        · simp only [hc] at hrun; cases hrun
        cases c
        case c1 =>
          simp only [hc] at hrun
          cases hsp : splitAtom a s.send with
          | error e => simp only [hsp] at hrun; cases hrun
          | ok lr =>
            obtain ⟨l, r⟩ := lr
            obtain ⟨h1, h2, _h3, hl, hr⟩ := splitAtom_ok hsp
            simp only [hsp] at hrun
            cases hsw : sweep fuel (r :: rest) sels with
            | error e => simp only [hsw] at hrun; cases hrun
            | ok t =>
              simp only [hsw, Except.ok.injEq] at hrun
              subst hrun
              rcases List.mem_cons.mp hb with rfl | hb
              · refine ⟨a, List.mem_cons_self a rest, ?_⟩
                subst hl
                refine ⟨by simp [setUnderline], by simp [setUnderline]; omega,
                  rfl, rfl, rfl, Or.inl (by simp [setUnderline]), ?_⟩
                exact Or.inr ⟨s, List.mem_cons_self s sels, Or.inr (by simp [setUnderline])⟩
              · have hfrag := ih (r :: rest) sels t hsw b hb
                obtain ⟨u, hu, hx1, hx2, hx3, hx4, hx5, hx6, hx7⟩ := hfrag
                rcases List.mem_cons.mp hu with rfl | hu
                · refine ⟨a, List.mem_cons_self a rest, ?_, ?_, ?_, ?_, ?_, ?_, ?_⟩
                  · subst hr; simp at hx1 ⊢; omega
                  · subst hr; simpa using hx2
                  · subst hr; simpa using hx3
                  · subst hr; simpa using hx4
                  · subst hr; simpa using hx5
                  · refine Or.inr ?_
                    rcases hx6 with h | h
                    · subst hr; simp at h
                      exact ⟨s, List.mem_cons_self s sels, Or.inr h⟩
                    · exact selBound_cons h
                  · rcases hx7 with h | h
                    · subst hr; simp at h; exact Or.inl h
                    · exact Or.inr (selBound_cons h)
                · exact fragOf_cons_atom (fragOf_cons_sel ⟨u, hu, hx1, hx2, hx3, hx4, hx5, hx6, hx7⟩)
        case c2 =>
          simp only [hc] at hrun
          cases hsp : splitAtom a s.sbegin with
          | error e => simp only [hsp] at hrun; cases hrun
          | ok lr =>
            obtain ⟨l1, r1⟩ := lr
            obtain ⟨h1, h2, _h3, hl1, hr1⟩ := splitAtom_ok hsp
            simp only [hsp] at hrun
            cases hsp2 : splitAtom r1 s.send with
            | error e => simp only [hsp2] at hrun; cases hrun
            | ok lr2 =>
              obtain ⟨l2, r2⟩ := lr2
              obtain ⟨h4, h5, _h6, hl2, hr2⟩ := splitAtom_ok hsp2
              rw [hr1] at h4 h5
              simp at h4 h5
              simp only [hsp2] at hrun
              cases hsw : sweep fuel (r2 :: rest) sels with
              | error e => simp only [hsw] at hrun; cases hrun
              | ok t =>
                simp only [hsw, Except.ok.injEq] at hrun
                subst hrun
                rcases List.mem_cons.mp hb with rfl | hb
                · refine ⟨a, List.mem_cons_self a rest, ?_⟩
                  subst hl1
                  refine ⟨by simp, by simp; omega, rfl, rfl, rfl, Or.inl (by simp), ?_⟩
                  exact Or.inr ⟨s, List.mem_cons_self s sels, Or.inl (by simp)⟩
                rcases List.mem_cons.mp hb with rfl | hb
                · refine ⟨a, List.mem_cons_self a rest, ?_⟩
                  subst hl2; subst hr1
                  refine ⟨by simp [setUnderline]; omega, by simp [setUnderline]; omega,
                    by simp [setUnderline], by simp [setUnderline], by simp [setUnderline], ?_, ?_⟩
                  · exact Or.inr ⟨s, List.mem_cons_self s sels, Or.inl (by simp [setUnderline])⟩
                  · exact Or.inr ⟨s, List.mem_cons_self s sels, Or.inr (by simp [setUnderline])⟩
                · have hfrag := ih (r2 :: rest) sels t hsw b hb
                  obtain ⟨u, hu, hx1, hx2, hx3, hx4, hx5, hx6, hx7⟩ := hfrag
                  rcases List.mem_cons.mp hu with rfl | hu
                  · refine ⟨a, List.mem_cons_self a rest, ?_, ?_, ?_, ?_, ?_, ?_, ?_⟩
                    · subst hr2; subst hr1; simp at hx1 ⊢; omega
                    · subst hr2; subst hr1; simpa using hx2
                    · subst hr2; subst hr1; simpa using hx3
                    · subst hr2; subst hr1; simpa using hx4
                    · subst hr2; subst hr1; simpa using hx5
                    · refine Or.inr ?_
                      rcases hx6 with h | h
                      · subst hr2; subst hr1; simp at h
                        exact ⟨s, List.mem_cons_self s sels, Or.inr h⟩
                      · exact selBound_cons h
                    · rcases hx7 with h | h
                      · subst hr2; subst hr1; simp at h; exact Or.inl h
                      · exact Or.inr (selBound_cons h)
                  · exact fragOf_cons_atom (fragOf_cons_sel ⟨u, hu, hx1, hx2, hx3, hx4, hx5, hx6, hx7⟩)
        case c3 =>
          simp only [hc] at hrun
          cases hsp : splitAtom a s.sbegin with
          | error e => simp only [hsp] at hrun; cases hrun
          | ok lr =>
            obtain ⟨l, r⟩ := lr
            obtain ⟨h1, h2, _h3, hl, hr⟩ := splitAtom_ok hsp
            simp only [hsp] at hrun
            cases hsw : sweep fuel rest (s :: sels) with
            | error e => simp only [hsw] at hrun; cases hrun
            | ok t =>
              simp only [hsw, Except.ok.injEq] at hrun
              subst hrun
              rcases List.mem_cons.mp hb with rfl | hb
              · refine ⟨a, List.mem_cons_self a rest, ?_⟩
                subst hl
                refine ⟨by simp, by simp; omega, rfl, rfl, rfl, Or.inl (by simp), ?_⟩
                exact Or.inr ⟨s, List.mem_cons_self s sels, Or.inl (by simp)⟩
              rcases List.mem_cons.mp hb with rfl | hb
              · refine ⟨a, List.mem_cons_self a rest, ?_⟩
                subst hr
                refine ⟨by simp [setUnderline]; omega, by simp [setUnderline],
                  by simp [setUnderline], by simp [setUnderline], by simp [setUnderline], ?_, ?_⟩
                · exact Or.inr ⟨s, List.mem_cons_self s sels, Or.inl (by simp [setUnderline])⟩
                · exact Or.inl (by simp [setUnderline])
              · exact fragOf_cons_atom (ih rest (s :: sels) t hsw b hb)
        case c4 =>
          simp only [hc] at hrun
          cases hsw : sweep fuel rest (s :: sels) with
          | error e => simp only [hsw] at hrun; cases hrun
          | ok t =>
            simp only [hsw, Except.ok.injEq] at hrun
            subst hrun
            rcases List.mem_cons.mp hb with rfl | hb
            · exact ⟨a, List.mem_cons_self a rest, by simp [setUnderline], by simp [setUnderline],
                by simp [setUnderline], by simp [setUnderline], by simp [setUnderline],
                Or.inl (by simp [setUnderline]), Or.inl (by simp [setUnderline])⟩
            · exact fragOf_cons_atom (ih rest (s :: sels) t hsw b hb)
        case c5 =>
          simp only [hc] at hrun
          exact fragOf_cons_sel (ih (a :: rest) sels out hrun b hb)
        case c6 =>
          simp only [hc] at hrun
          cases hsw : sweep fuel rest (s :: sels) with
          | error e => simp only [hsw] at hrun; cases hrun
          | ok t =>
            simp only [hsw, Except.ok.injEq] at hrun
            subst hrun
            rcases List.mem_cons.mp hb with rfl | hb
            · exact fragOf_self (List.mem_cons_self b rest)
            · exact fragOf_cons_atom (ih rest (s :: sels) t hsw b hb)

/-- Lines 29-30 of `colorize_regex` (also lines 77-78 of
`expand_tabulations`): if the target position is not the atom's begin,
split there and advance to the right part (`++split(...)`); the emitted
left part (if any) is returned alongside the atom the iterator now
designates. -/
def splitBefore (a : DisplayAtom) (mb : Nat) :
    Except FiltErr (List DisplayAtom × DisplayAtom) :=
  if a.abegin = mb then .ok ([], a)
  else
    match splitAtom a mb with
    | .error e => .error e
    | .ok (l, r) => .ok ([l], r)

/-- Lines 31-32 of `colorize_regex` (also lines 80-81 of
`expand_tabulations`): if the target position is not the atom's end, split
there; the iterator stays on the left part (`split(...)` without `++`) and
the right part follows it. -/
def splitAfter (a : DisplayAtom) (me : Nat) :
    Except FiltErr (DisplayAtom × List DisplayAtom) :=
  if a.aend = me then .ok (a, [])
  else
    match splitAtom a me with
    | .error e => .error e
    | .ok (l, r) => .ok (l, [r])

theorem splitBefore_ok {a : DisplayAtom} {mb : Nat} {pre : List DisplayAtom}
    {cur : DisplayAtom} (h : splitBefore a mb = .ok (pre, cur)) :
    cur = { a with abegin := mb } ∧
      (a.abegin = mb ∨ (a.abegin < mb ∧ mb < a.aend)) ∧
      pre = if a.abegin = mb then [] else [{ a with aend := mb }] := by
  unfold splitBefore at h
  split at h
  · rename_i heq
    injection h with h
    injection h with h1 h2
    subst h1
    subst h2
    refine ⟨?_, Or.inl heq, by simp [heq]⟩
    cases a
    simp_all
  · rename_i hne
    cases hsp : splitAtom a mb with
    | error e => rw [hsp] at h; cases h
    | ok lr =>
      obtain ⟨l, r⟩ := lr
      rw [hsp] at h
      obtain ⟨h1, h2, _h3, hl, hr⟩ := splitAtom_ok hsp
      injection h with h
      injection h with h4 h5
      subst h4
      subst h5
      exact ⟨hr, Or.inr ⟨h1, h2⟩, by rw [if_neg hne, hl]⟩

theorem splitAfter_ok {a : DisplayAtom} {me : Nat} {mid : DisplayAtom}
    {post : List DisplayAtom} (h : splitAfter a me = .ok (mid, post)) :
    mid = { a with aend := me } ∧
      (a.aend = me ∨ (a.abegin < me ∧ me < a.aend)) ∧
      post = if a.aend = me then [] else [{ a with abegin := me }] := by
  unfold splitAfter at h
  split at h
  · rename_i heq
    injection h with h
    injection h with h1 h2
    subst h1
    subst h2
    refine ⟨?_, Or.inl heq, by simp [heq]⟩
    cases a
    simp_all
  · rename_i hne
    cases hsp : splitAtom a me with
    | error e => rw [hsp] at h; cases h
    | ok lr =>
      obtain ⟨l, r⟩ := lr
      rw [hsp] at h
      obtain ⟨h1, h2, _h3, hl, hr⟩ := splitAtom_ok hsp
      injection h with h
      injection h with h4 h5
      subst h4
      subst h5
      exact ⟨hl, Or.inr ⟨h1, h2⟩, by rw [if_neg hne, hr]⟩

/-- The loop of `colorize_regex` (lines 21-37).  The hint iterator
`atom_it` is the decomposition of the display buffer into `done` (the
atoms before the hint) and `todo` (the suffix from the hint).  For a match
`[mb, me)`, the `atom_containing` scans for `mb` and `me` both start at
the hint and skip the atoms ending at or before `mb`; they stop at the
same atom exactly when that atom also reaches past `me` (the
`begin_atom_it == end_atom_it` test of line 27; when no atom remains both
scans return `end()` and line 29 would dereference it).  A colorable match
is isolated by the two conditional splits of lines 29-32 and its atom's
foreground is set (line 34); afterwards — and also for a dropped match —
the hint becomes `begin_atom_it` (line 36). -/
def colorizeGo (c : Color) :
    List DisplayAtom → List DisplayAtom → List (Nat × Nat) →
    Except FiltErr (List DisplayAtom)
  | done, todo, [] => .ok (done ++ todo)
  | done, todo, (mb, me) :: ms =>
    match todo.dropWhile (fun a => a.aend ≤ mb) with
    | [] => .error .deref
    | a :: rest =>
      if me < a.aend then
        match splitBefore a mb with
        | .error e => .error e
        | .ok (pre, cur) =>
          match splitAfter cur me with
          | .error e => .error e
          | .ok (mid, post) =>
            colorizeGo c (done ++ todo.takeWhile (fun a => a.aend ≤ mb) ++ pre)
              ({ mid with fg := c } :: post ++ rest) ms
      else
        colorizeGo c (done ++ todo.takeWhile (fun a => a.aend ≤ mb)) (a :: rest) ms

/-- `colorize_regex` (lines 11-38).  The regex engine is an external
collaborator (spec section 2); the list `ms` holds its match ranges
`[mbegin, mend)` in position order.  The hint starts at
`display_buffer.begin()` (line 20). -/
def colorize_regex (atoms : List DisplayAtom) (ms : List (Nat × Nat)) (c : Color) :
    Except FiltErr (List DisplayAtom) :=
  colorizeGo c [] atoms ms

theorem colorize_pieces_chained {a cur mid : DisplayAtom} {mb me : Nat}
    {pre post : List DisplayAtom} (c : Color) (hab : a.abegin ≤ a.aend)
    (h1 : splitBefore a mb = .ok (pre, cur)) (h2 : splitAfter cur me = .ok (mid, post)) :
    chainedB a.abegin (pre ++ { mid with fg := c } :: post) a.aend = true := by
  obtain ⟨hcur, hble, hpre⟩ := splitBefore_ok h1
  obtain ⟨hmid, hmle, hpost⟩ := splitAfter_ok h2
  subst hcur
  simp at hmle hpost
  split at hpre <;> split at hpost <;>
    subst hpre <;> subst hpost <;> subst hmid <;>
    simp_all [chainedB] <;> omega

theorem colorizeGo_chained {hi : Nat} (c : Color) :
    ∀ (ms : List (Nat × Nat)) (done todo : List DisplayAtom) (p : Nat)
      (out : List DisplayAtom),
      chainedB p (done ++ todo) hi = true →
      colorizeGo c done todo ms = .ok out →
      chainedB p out hi = true := by
  intro ms
  induction ms with
  | nil =>
    intro done todo p out hch hrun
    simp only [colorizeGo, Except.ok.injEq] at hrun
    exact hrun ▸ hch
  | cons m ms ih =>
    obtain ⟨mb, me⟩ := m
    intro done todo p out hch hrun
    rw [colorizeGo] at hrun
    cases hdrop : todo.dropWhile (fun a => a.aend ≤ mb) with
    | nil => simp only [hdrop] at hrun; cases hrun
    | cons a rest =>
      simp only [hdrop] at hrun
      have htodo : todo = todo.takeWhile (fun a => a.aend ≤ mb) ++ a :: rest := by
        conv_lhs => rw [← List.takeWhile_append_dropWhile (p := fun a => a.aend ≤ mb) (l := todo)]
        rw [hdrop]
      have hch2 : chainedB p ((done ++ todo.takeWhile (fun a => a.aend ≤ mb)) ++ a :: rest) hi
          = true := by
        rw [List.append_assoc, ← htodo]
        exact hch
      have hab : a.abegin ≤ a.aend := by
        obtain ⟨m1, hm1, hm2⟩ := chained_split (p := p) hch2
        exact (chained_cons hm2).2.1
      by_cases hcond : me < a.aend
      · rw [if_pos hcond] at hrun
        cases hsb : splitBefore a mb with
        | error e => simp only [hsb] at hrun; cases hrun
        | ok pc =>
          obtain ⟨pre, cur⟩ := pc
          simp only [hsb] at hrun
          cases hsa : splitAfter cur me with
          | error e => simp only [hsa] at hrun; cases hrun
          | ok mp =>
            obtain ⟨mid, post⟩ := mp
            simp only [hsa] at hrun
            have hpieces := colorize_pieces_chained c hab hsb hsa
            have hch3 : chainedB p
                ((done ++ todo.takeWhile (fun a => a.aend ≤ mb)) ++
                  (pre ++ { mid with fg := c } :: post) ++ rest) hi = true :=
              chained_replace hpieces hch2
            refine ih _ _ p out ?_ hrun
            have : (done ++ todo.takeWhile (fun a => a.aend ≤ mb) ++ pre) ++
                ({ mid with fg := c } :: post ++ rest) =
                (done ++ todo.takeWhile (fun a => a.aend ≤ mb)) ++
                  (pre ++ { mid with fg := c } :: post) ++ rest := by
              simp
            rw [this]
            exact hch3
      · rw [if_neg hcond] at hrun
        refine ih _ _ p out ?_ hrun
        rw [List.append_assoc, ← htodo]
        exact hch

/-- Modelled from the spec (section 2: buffer positions translate to and
from line/column): the start of the line containing position `p` — either
position 0 or the position right after the closest newline before `p`. -/
def lineStartPos (buf : List Char) : Nat → Nat
  | 0 => 0
  | p + 1 => if buf.getD p ' ' = '\n' then p + 1 else lineStartPos buf p

/-- The column-replay loop of `expand_tabulations` (lines 85-94): a plain
character advances the visual column by 1, a tab advances it to the next
multiple of the tab stop. -/
def colLoop (tabstop : Nat) : List Char → Nat → Nat
  | [], col => col
  | ch :: rest, col =>
    colLoop tabstop rest (if ch = '\t' then col + (tabstop - col % tabstop) else col + 1)

/-- The visual column of position `p` (lines 83-94 of
`expand_tabulations`): replay the characters from the start of the line of
`p` up to but not including `p`, with tab stop 8 (line 69). -/
def columnOf (buf : List Char) (p : Nat) : Nat :=
  colLoop 8 ((buf.take p).drop (lineStartPos buf p)) 0

/-- The replacement content of an isolated tab atom (lines 96-98):
`8 - column % 8` space characters. -/
def spacesFor (buf : List Char) (p : Nat) : List Char :=
  List.replicate (8 - columnOf buf p % 8) ' '

/-- The inner scan of `expand_tabulations` (lines 73-75): the first of the
`n` buffer positions starting at `p` that carries a tab character. -/
def findTabN (buf : List Char) : Nat → Nat → Option Nat
  | _, 0 => none
  | p, n + 1 => if buf.getD p ' ' = '\t' then some p else findTabN buf (p + 1) n

theorem findTabN_some {buf : List Char} :
    ∀ {n p q : Nat}, findTabN buf p n = some q →
      p ≤ q ∧ q < p + n ∧ buf.getD q ' ' = '\t' ∧
        ∀ j, p ≤ j → j < q → buf.getD j ' ' ≠ '\t' := by
  intro n
  induction n with
  | zero => intro p q h; simp [findTabN] at h
  | succ n ih =>
    intro p q h
    rw [findTabN] at h
    split at h
    · rename_i htab
      injection h with h
      subst h
      exact ⟨le_refl _, by omega, htab, fun j h1 h2 => absurd h1 (by omega)⟩
    · rename_i htab
      obtain ⟨h1, h2, h3, h4⟩ := ih h
      refine ⟨by omega, by omega, h3, ?_⟩
      intro j hj1 hj2
      rcases Nat.eq_or_lt_of_le hj1 with rfl | hj1
      · exact htab
      · exact h4 j hj1 hj2

theorem findTabN_none {buf : List Char} :
    ∀ {n p : Nat}, findTabN buf p n = none →
      ∀ j, p ≤ j → j < p + n → buf.getD j ' ' ≠ '\t' := by
  intro n
  induction n with
  | zero => intro p _ j h1 h2; omega
  | succ n ih =>
    intro p h j hj1 hj2
    rw [findTabN] at h
    split at h
    · cases h
    · rename_i htab
      rcases Nat.eq_or_lt_of_le hj1 with rfl | hj1
      · exact htab
      · exact ih h j hj1 (by omega)

/-- The loop of `expand_tabulations` (lines 70-101): scan each atom's
buffer range for tabs; a tab at position `p` is isolated into its own atom
by the two conditional splits of lines 77-81 and its content replaced by
spaces (lines 96-98); the scan then continues after `p` — the right part
of the second split is the atom the outer loop visits next.  The first
argument is recursion fuel; each step either moves past a whole atom or
consumes at least one position of the current atom, so the wrapper's fuel
suffices. -/
def expandTabsGo (buf : List Char) :
    Nat → List DisplayAtom → Except FiltErr (List DisplayAtom)
  | 0, _ => .error .fuel
  | _ + 1, [] => .ok []
  | fuel + 1, a :: rest =>
    match findTabN buf a.abegin (a.aend - a.abegin) with
    | none =>
      match expandTabsGo buf fuel rest with
      | .error e => .error e
      | .ok t => .ok (a :: t)
    | some p =>
      match splitBefore a p with
      | .error e => .error e
      | .ok (pre, cur) =>
        match splitAfter cur (p + 1) with
        | .error e => .error e
        | .ok (mid, post) =>
          match expandTabsGo buf fuel (post ++ rest) with
          | .error e => .error e
          | .ok t => .ok (pre ++ { mid with content := some (spacesFor buf p) } :: t)

/-- `expand_tabulations` (lines 67-102), with sufficient fuel for its
termination measure (total covered width plus atom count). -/
def expand_tabulations (buf : List Char) (atoms : List DisplayAtom) :
    Except FiltErr (List DisplayAtom) :=
  expandTabsGo buf ((atoms.map fun a => a.aend - a.abegin).sum + atoms.length + 1) atoms

theorem expandTabsGo_chained {hi : Nat} {buf : List Char} :
    ∀ (fuel : Nat) (l : List DisplayAtom) (p : Nat) (out : List DisplayAtom),
      chainedB p l hi = true → expandTabsGo buf fuel l = .ok out →
      chainedB p out hi = true := by
  intro fuel
  induction fuel with
  | zero => intro l p out _ h; simp [expandTabsGo] at h
  | succ fuel ih =>
    intro l p out hch hrun
    cases l with
    | nil =>
      simp only [expandTabsGo, Except.ok.injEq] at hrun
      exact hrun ▸ hch
    | cons a rest =>
      obtain ⟨hp, hab, hrest⟩ := chained_cons hch
      rw [expandTabsGo] at hrun
      cases hft : findTabN buf a.abegin (a.aend - a.abegin) with
      | none =>
        simp only [hft] at hrun
        cases hrec : expandTabsGo buf fuel rest with
        | error e => simp only [hrec] at hrun; cases hrun
        | ok t =>
          simp only [hrec, Except.ok.injEq] at hrun
          subst hrun
          exact chained_cons_of hp hab (ih rest a.aend t hrest hrec)
      | some q =>
        obtain ⟨hq1, hq2, _hq3, _hq4⟩ := findTabN_some hft
        simp only [hft] at hrun
        cases hsb : splitBefore a q with
        | error e => simp only [hsb] at hrun; cases hrun
        | ok pc =>
          obtain ⟨pre, cur⟩ := pc
          simp only [hsb] at hrun
          cases hsa : splitAfter cur (q + 1) with
          | error e => simp only [hsa] at hrun; cases hrun
          | ok mp =>
            obtain ⟨mid, post⟩ := mp
            simp only [hsa] at hrun
            cases hrec : expandTabsGo buf fuel (post ++ rest) with
            | error e => simp only [hrec] at hrun; cases hrun
            | ok t =>
              simp only [hrec, Except.ok.injEq] at hrun
              subst hrun
              obtain ⟨hcur, hbd, hpre⟩ := splitBefore_ok hsb
              obtain ⟨hmid, had, hpost⟩ := splitAfter_ok hsa
              subst hcur
              simp at had hpost
              have hpieces : chainedB a.abegin
                  (pre ++ [{ mid with content := some (spacesFor buf q) }]) (q + 1) = true := by
                split at hpre <;> subst hpre <;> subst hmid <;>
                  simp_all [chainedB]
              have hpostch : chainedB (q + 1) (post ++ rest) hi = true := by
                split at hpost <;> subst hpost
                · rename_i heq
                  simp only [List.nil_append]
                  have : q + 1 = a.aend := by omega
                  exact this ▸ hrest
                · refine chained_cons_of rfl (by simp; omega) ?_
                  simpa using hrest
              have ht := ih (post ++ rest) (q + 1) t hpostch hrec
              have := chained_glue (p := a.abegin) hpieces ht
              rw [hp]
              simpa using this

theorem expandTabsGo_tabs {hi : Nat} {buf : List Char} :
    ∀ (fuel : Nat) (l : List DisplayAtom) (p : Nat) (out : List DisplayAtom),
      chainedB p l hi = true → expandTabsGo buf fuel l = .ok out →
      ∀ q, p ≤ q → q < hi → buf.getD q ' ' = '\t' →
      ∃ b ∈ out, b.abegin = q ∧ b.aend = q + 1 ∧
        b.content = some (spacesFor buf q) := by
  intro fuel
  induction fuel with
  | zero => intro l p out _ h; simp [expandTabsGo] at h
  | succ fuel ih =>
    intro l p out hch hrun q hq1 hq2 hq3
    cases l with
    | nil =>
      have := chained_nil hch
      omega
    | cons a rest =>
      obtain ⟨hp, hab, hrest⟩ := chained_cons hch
      rw [expandTabsGo] at hrun
      cases hft : findTabN buf a.abegin (a.aend - a.abegin) with
      | none =>
        simp only [hft] at hrun
        cases hrec : expandTabsGo buf fuel rest with
        | error e => simp only [hrec] at hrun; cases hrun
        | ok t =>
          simp only [hrec, Except.ok.injEq] at hrun
          subst hrun
          by_cases hqa : q < a.aend
          · exfalso
            exact findTabN_none hft q (hp ▸ hq1) (by omega) hq3
          · obtain ⟨b, hb, hbx⟩ := ih rest a.aend t hrest hrec q (by omega) hq2 hq3
            exact ⟨b, List.mem_cons_of_mem a hb, hbx⟩
      | some tp =>
        obtain ⟨ht1, ht2, _ht3, ht4⟩ := findTabN_some hft
        simp only [hft] at hrun
        cases hsb : splitBefore a tp with
        | error e => simp only [hsb] at hrun; cases hrun
        | ok pc =>
          obtain ⟨pre, cur⟩ := pc
          simp only [hsb] at hrun
          cases hsa : splitAfter cur (tp + 1) with
          | error e => simp only [hsa] at hrun; cases hrun
          | ok mp =>
            obtain ⟨mid, post⟩ := mp
            simp only [hsa] at hrun
            cases hrec : expandTabsGo buf fuel (post ++ rest) with
            | error e => simp only [hrec] at hrun; cases hrun
            | ok t =>
              simp only [hrec, Except.ok.injEq] at hrun
              subst hrun
              obtain ⟨hcur, hbd, hpre⟩ := splitBefore_ok hsb
              obtain ⟨hmid, had, hpost⟩ := splitAfter_ok hsa
              subst hcur
              simp at had hpost
              rcases Nat.lt_trichotomy q tp with hqt | rfl | hqt
              · exfalso
                exact ht4 q (hp ▸ hq1) hqt hq3
              · refine ⟨{ mid with content := some (spacesFor buf q) },
                  List.mem_append_right pre (List.mem_cons_self _ _), ?_, ?_, rfl⟩
                · subst hmid; simp
                · subst hmid; simp
              · have hpostch : chainedB (tp + 1) (post ++ rest) hi = true := by
                  split at hpost <;> subst hpost
                  · rename_i heq
                    simp only [List.nil_append]
                    have : tp + 1 = a.aend := by omega
                    exact this ▸ hrest
                  · refine chained_cons_of rfl (by simp; omega) ?_
                    simpa using hrest
                obtain ⟨b, hb, hbx⟩ :=
                  ih (post ++ rest) (tp + 1) t hpostch hrec q (by omega) hq2 hq3
                exact ⟨b, List.mem_append_right pre (List.mem_cons_of_mem _ hb), hbx⟩

/-- Modelled from the spec (section 2): the 0-based line number of
position `p` — the number of newlines before `p`. -/
def lineAt (buf : List Char) (p : Nat) : Nat :=
  ((buf.take p).filter fun ch => ch = '\n').length

/-- Modelled from the spec (section 2): the position of column 0 of the
0-based line `l` — position 0, or one past the end of the previous line. -/
def lineStartOfLine (buf : List Char) : Nat → Nat
  | 0 => 0
  | l + 1 =>
    lineStartOfLine buf l +
      ((buf.drop (lineStartOfLine buf l)).takeWhile fun ch => ch ≠ '\n').length + 1

/-- Modelled from the spec (section 2): `buffer.iterator_at(coord)`. -/
def iterator_at (buf : List Char) (line col : Nat) : Nat :=
  lineStartOfLine buf line + col

/-- The character of a decimal digit. -/
def digitChar (d : Nat) : Char := Char.ofNat (48 + d)

/-- Most-significant-first decimal digits (fuel-based division loop). -/
def natDigitsGo : Nat → Nat → List Char → List Char
  | 0, _, acc => acc
  | fuel + 1, n, acc =>
    if n < 10 then digitChar n :: acc
    else natDigitsGo fuel (n / 10) (digitChar (n % 10) :: acc)

/-- The decimal digits of `n`. -/
def natDigits (n : Nat) : List Char := natDigitsGo (n + 1) n []

/-- The gutter text for the 1-based line number `n`:
`snprintf(buffer, 6, "%3d ", n)` (lines 130-131) — the decimal digits
right-aligned in a 3-column field, one trailing space, truncated to the 5
characters that fit the 6-byte buffer. -/
def fmt3d (n : Nat) : List Char :=
  (List.replicate (3 - (natDigits n).length) ' ' ++ natDigits n ++ [' ']).take 5

/-- The synthetic gutter atom of `show_line_numbers` (lines 124-132):
zero-width at the line-start position, black on white, its content the
formatted 1-based line number; synthetic atoms are not splitable (spec
section 3). -/
def gutterAtom (p n : Nat) : DisplayAtom :=
  ⟨p, p, .Black, .White, 0, some (fmt3d n), false⟩

/-- One iteration of the `show_line_numbers` loop (lines 112-133) for the
0-based line `line`.  The line-start position is `iterator_at` of the
loop's coordinate, whose column `col0` is never reset by the loop
(lines 107, 111, 113).  `atom_containing` scans from the buffer's begin
(no hint, line 114); when it returns `end()` the line is left alone.  If
the found atom does not begin at the line start it is split there — but a
non-splitable atom makes the line be silently skipped (lines 119-120).
The gutter atom is inserted before the content atom and its content set
(lines 124-132). -/
def slnStep (buf : List Char) (atoms : List DisplayAtom) (line col0 : Nat) :
    Except FiltErr (List DisplayAtom) :=
  match atoms.dropWhile (fun a => a.aend ≤ iterator_at buf line col0) with
  | [] => .ok atoms
  | a :: rest =>
    if a.abegin = iterator_at buf line col0 then
      .ok (atoms.takeWhile (fun a => a.aend ≤ iterator_at buf line col0) ++
        gutterAtom a.abegin (line + 1) :: a :: rest)
    else if a.splitable then
      match splitAtom a (iterator_at buf line col0) with
      | .error e => .error e
      | .ok (l, r) =>
        .ok (atoms.takeWhile (fun a => a.aend ≤ iterator_at buf line col0) ++
          l :: gutterAtom r.abegin (line + 1) :: r :: rest)
    else .ok atoms

/-- The line loop of `show_line_numbers` (line 111), iterating `count`
times starting at line `line`. -/
def slnLoop (buf : List Char) :
    List DisplayAtom → Nat → Nat → Nat → Except FiltErr (List DisplayAtom)
  | atoms, _, _, 0 => .ok atoms
  | atoms, line, col0, count + 1 =>
    match slnStep buf atoms line col0 with
    | .error e => .error e
    | .ok atoms2 => slnLoop buf atoms2 (line + 1) col0 count

/-- `show_line_numbers` (lines 104-135): the loop coordinate starts as the
line/column of the first atom's begin (line 107); the last line is the
line of the last covered position (line 109); the loop runs while
`coord.line <= last_line`. -/
def show_line_numbers (buf : List Char) (atoms : List DisplayAtom) :
    Except FiltErr (List DisplayAtom) :=
  match atoms with
  | [] => .error .deref
  | a0 :: rest =>
    slnLoop buf (a0 :: rest) (lineAt buf a0.abegin)
      (a0.abegin - lineStartPos buf a0.abegin)
      (lineAt buf (((a0 :: rest).getLast (List.cons_ne_nil a0 rest)).aend - 1) + 1 -
        lineAt buf a0.abegin)

theorem slnStep_chained {hi : Nat} {buf : List Char} {atoms : List DisplayAtom}
    {line col0 p : Nat} {out : List DisplayAtom}
    (hch : chainedB p atoms hi = true) (hrun : slnStep buf atoms line col0 = .ok out) :
    chainedB p out hi = true := by
  rw [slnStep] at hrun
  cases hdrop : atoms.dropWhile (fun a => a.aend ≤ iterator_at buf line col0) with
  | nil =>
    simp only [hdrop, Except.ok.injEq] at hrun
    exact hrun ▸ hch
  | cons a rest =>
    have hatoms : atoms =
        atoms.takeWhile (fun a => a.aend ≤ iterator_at buf line col0) ++ a :: rest := by
      conv_lhs => rw [← List.takeWhile_append_dropWhile
        (p := fun a => a.aend ≤ iterator_at buf line col0) (l := atoms)]
      rw [hdrop]
    have hch2 : chainedB p
        (atoms.takeWhile (fun a => a.aend ≤ iterator_at buf line col0) ++ a :: rest) hi
        = true := hatoms ▸ hch
    have hab : a.abegin ≤ a.aend := by
      obtain ⟨m1, hm1, hm2⟩ := chained_split (p := p) hch2
      exact (chained_cons hm2).2.1
    simp only [hdrop] at hrun
    by_cases heq : a.abegin = iterator_at buf line col0
    · rw [if_pos heq] at hrun
      injection hrun with hout
      subst hout
      have hmid : chainedB a.abegin [gutterAtom a.abegin (line + 1), a] a.aend = true := by
        simp [chainedB, gutterAtom, hab]
      have := chained_replace hmid hch2
      simpa using this
    · rw [if_neg heq] at hrun
      by_cases hsp : a.splitable
      · rw [if_pos hsp] at hrun
        cases hspl : splitAtom a (iterator_at buf line col0) with
        | error e => simp only [hspl] at hrun; cases hrun
        | ok lr =>
          obtain ⟨l, r⟩ := lr
          obtain ⟨h1, h2, _h3, hl, hr⟩ := splitAtom_ok hspl
          simp only [hspl, Except.ok.injEq] at hrun
          subst hrun
          have hmid : chainedB a.abegin
              [l, gutterAtom r.abegin (line + 1), r] a.aend = true := by
            subst hl; subst hr
            simp [chainedB, gutterAtom]
            omega
          have := chained_replace hmid hch2
          simpa using this
      · rw [if_neg hsp] at hrun
        injection hrun with hout
        exact hout ▸ hch

theorem slnStep_new_atoms {buf : List Char} {atoms : List DisplayAtom}
    {line col0 : Nat} {out : List DisplayAtom}
    (hrun : slnStep buf atoms line col0 = .ok out) :
    ∀ b ∈ out, b.abegin = b.aend →
      b ∈ atoms ∨ b = gutterAtom (iterator_at buf line col0) (line + 1) := by
  rw [slnStep] at hrun
  cases hdrop : atoms.dropWhile (fun a => a.aend ≤ iterator_at buf line col0) with
  | nil =>
    simp only [hdrop, Except.ok.injEq] at hrun
    intro b hb _
    exact Or.inl (hrun ▸ hb)
  | cons a rest =>
    have hsubT : ∀ b, b ∈ atoms.takeWhile (fun a => a.aend ≤ iterator_at buf line col0) →
        b ∈ atoms := fun b hb => (List.takeWhile_sublist _).subset hb
    have hsubD : ∀ b, b ∈ a :: rest → b ∈ atoms := by
      intro b hb
      have := List.dropWhile_sublist (l := atoms)
        (p := fun a => a.aend ≤ iterator_at buf line col0)
      rw [hdrop] at this
      exact this.subset hb
    simp only [hdrop] at hrun
    by_cases heq : a.abegin = iterator_at buf line col0
    · rw [if_pos heq] at hrun
      injection hrun with hout
      subst hout
      intro b hb _
      rcases List.mem_append.mp hb with hb | hb
      · exact Or.inl (hsubT b hb)
      rcases List.mem_cons.mp hb with rfl | hb
      · exact Or.inr (by rw [heq])
      · exact Or.inl (hsubD b hb)
    · rw [if_neg heq] at hrun
      by_cases hsp : a.splitable
      · rw [if_pos hsp] at hrun
        cases hspl : splitAtom a (iterator_at buf line col0) with
        | error e => simp only [hspl] at hrun; cases hrun
        | ok lr =>
          obtain ⟨l, r⟩ := lr
          obtain ⟨h1, h2, _h3, hl, hr⟩ := splitAtom_ok hspl
          simp only [hspl, Except.ok.injEq] at hrun
          subst hrun
          intro b hb hzero
          rcases List.mem_append.mp hb with hb | hb
          · exact Or.inl (hsubT b hb)
          rcases List.mem_cons.mp hb with rfl | hb
          · exfalso
            subst hl
            simp at hzero
            omega
          rcases List.mem_cons.mp hb with rfl | hb
          · refine Or.inr ?_
            subst hr
            rfl
          rcases List.mem_cons.mp hb with rfl | hb
          · exfalso
            subst hr
            simp at hzero
            omega
          · exact Or.inl (hsubD b (List.mem_cons_of_mem a hb))
      · rw [if_neg hsp] at hrun
        injection hrun with hout
        subst hout
        intro b hb _
        exact Or.inl hb

theorem slnLoop_chained {hi : Nat} {buf : List Char} :
    ∀ (count : Nat) (atoms : List DisplayAtom) (line col0 p : Nat)
      (out : List DisplayAtom),
      chainedB p atoms hi = true → slnLoop buf atoms line col0 count = .ok out →
      chainedB p out hi = true := by
  intro count
  induction count with
  | zero =>
    intro atoms line col0 p out hch hrun
    simp only [slnLoop, Except.ok.injEq] at hrun
    exact hrun ▸ hch
  | succ count ih =>
    intro atoms line col0 p out hch hrun
    rw [slnLoop] at hrun
    cases hstep : slnStep buf atoms line col0 with
    | error e => simp only [hstep] at hrun; cases hrun
    | ok atoms2 =>
      simp only [hstep] at hrun
      exact ih atoms2 (line + 1) col0 p out (slnStep_chained hch hstep) hrun

theorem slnLoop_new_atoms {buf : List Char} :
    ∀ (count : Nat) (atoms : List DisplayAtom) (line col0 : Nat)
      (out : List DisplayAtom),
      slnLoop buf atoms line col0 count = .ok out →
      ∀ b ∈ out, b.abegin = b.aend →
        b ∈ atoms ∨ ∃ l, line ≤ l ∧ l < line + count ∧
          b = gutterAtom (iterator_at buf l col0) (l + 1) := by
  intro count
  induction count with
  | zero =>
    intro atoms line col0 out hrun b hb _
    simp only [slnLoop, Except.ok.injEq] at hrun
    exact Or.inl (hrun ▸ hb)
  | succ count ih =>
    intro atoms line col0 out hrun b hb hzero
    rw [slnLoop] at hrun
    cases hstep : slnStep buf atoms line col0 with
    | error e => simp only [hstep] at hrun; cases hrun
    | ok atoms2 =>
      simp only [hstep] at hrun
      rcases ih atoms2 (line + 1) col0 out hrun b hb hzero with hmem | ⟨l, hl1, hl2, hl3⟩
      · rcases slnStep_new_atoms hstep b hmem hzero with hmem2 | hg
        · exact Or.inl hmem2
        · exact Or.inr ⟨line, le_refl _, by omega, hg⟩
      · exact Or.inr ⟨l, by omega, by omega, hl3⟩

/-- Modelled from the spec: the sweep of `SelectionsHighlighter::operator()`
with section 4.1 taken at its word — `split` returning an iterator to the
second (right) atom.  Under that reading, after each split `atom_it`
designates the right part, so the underlining of `*atom_it` in case 1 hits
the right part, the `++atom_it` of cases 2 and 3 moves past the right part
onto the following atom (dereferencing or splitting the end iterator when
there is none), and case 2's second split is applied to that following
atom.  Only used to refute claim C2's reading of the return value. -/
def sweepR : Nat → List DisplayAtom → List Selection → Except FiltErr (List DisplayAtom)
  | 0, _, _ => .error .fuel
  | _ + 1, atoms, [] => .ok atoms
  | _ + 1, [], _ :: _ => .ok []
  | fuel + 1, a :: rest, s :: sels =>
    match caseOf a s with
    | some .c1 =>
      match splitAtom a s.send with
      | .error e => .error e
      | .ok (l, r) =>
        match sweepR fuel rest sels with
        | .error e => .error e
        | .ok t => .ok (l :: setUnderline r :: t)
    | some .c2 =>
      match splitAtom a s.sbegin with
      | .error e => .error e
      | .ok (l1, r1) =>
        match rest with
        | [] => .error .deref
        | b :: rest2 =>
          match splitAtom b s.send with
          | .error e => .error e
          | .ok (l2, r2) =>
            match sweepR fuel rest2 sels with
            | .error e => .error e
            | .ok t => .ok (l1 :: r1 :: l2 :: setUnderline r2 :: t)
    | some .c3 =>
      match splitAtom a s.sbegin with
      | .error e => .error e
      | .ok (l, r) =>
        match rest with
        | [] => .error .deref
        | b :: rest2 =>
          match sweepR fuel rest2 (s :: sels) with
          | .error e => .error e
          | .ok t => .ok (l :: r :: setUnderline b :: t)
    | some .c4 =>
      match sweepR fuel rest (s :: sels) with
      | .error e => .error e
      | .ok t => .ok (setUnderline a :: t)
    | some .c5 => sweepR fuel (a :: rest) sels
    | some .c6 =>
      match sweepR fuel rest (s :: sels) with
      | .error e => .error e
      | .ok t => .ok (a :: t)
    | none => .error .assertFail

/-- The selection highlighter built on the right-returning `split` of the
spec's section 4.1 wording; see `sweepR`. -/
def highlight_selections_R (sels : List Selection) (atoms : List DisplayAtom) :
    Except FiltErr (List DisplayAtom) :=
  sweepR (atoms.length + sels.length + 1) atoms (sortSels sels)

/-- Claim C1: for every filter (regex colorizer, tab expander, line-number
gutter, selection highlighter) and every display buffer whose atom
sequence satisfies the partition invariants (ordered, non-overlapping,
gap-free coverage of `[lo, hi)`), after the filter runs the atom ranges
are still strictly ordered by begin and pairwise non-overlapping for real
atoms, and the union of the real atoms' ranges equals the union before
the filter ran. -/
theorem C1_partition_invariants (lo hi : Nat) (atoms : List DisplayAtom)
    (h : chainedB lo atoms hi = true) :
    (∀ ms c out, colorize_regex atoms ms c = .ok out →
      realOrdered out ∧ unionOf out = unionOf atoms) ∧
    (∀ buf out, expand_tabulations buf atoms = .ok out →
      realOrdered out ∧ unionOf out = unionOf atoms) ∧
    (∀ buf out, show_line_numbers buf atoms = .ok out →
      realOrdered out ∧ unionOf out = unionOf atoms) ∧
    (∀ sels out, highlight_selections sels atoms = .ok out →
      realOrdered out ∧ unionOf out = unionOf atoms) := by
  refine ⟨?_, ?_, ?_, ?_⟩
  · intro ms c out hrun
    rw [colorize_regex] at hrun
    have hch := colorizeGo_chained c ms [] atoms lo out (by simpa using h) hrun
    exact ⟨chained_realOrdered hch, by rw [chained_union hch, chained_union h]⟩
  · intro buf out hrun
    rw [expand_tabulations] at hrun
    have hch := expandTabsGo_chained _ atoms lo out h hrun
    exact ⟨chained_realOrdered hch, by rw [chained_union hch, chained_union h]⟩
  · intro buf out hrun
    cases atoms with
    | nil => rw [show_line_numbers] at hrun; cases hrun
    | cons a0 rest =>
      rw [show_line_numbers] at hrun
      have hch := slnLoop_chained _ _ _ _ lo out h hrun
      exact ⟨chained_realOrdered hch, by rw [chained_union hch, chained_union h]⟩
  · intro sels out hrun
    rw [highlight_selections] at hrun
    have hch := sweep_chained _ atoms (sortSels sels) lo out h hrun
    exact ⟨chained_realOrdered hch, by rw [chained_union hch, chained_union h]⟩

theorem C1_partition_invariants_witness :
    realOrdered [DisplayAtom.mk 0 3 .Default .Default 0 none true,
      DisplayAtom.mk 3 7 .Default .Default 1 none true,
      DisplayAtom.mk 7 10 .Default .Default 0 none true] ∧
    unionOf [DisplayAtom.mk 0 3 .Default .Default 0 none true,
      DisplayAtom.mk 3 7 .Default .Default 1 none true,
      DisplayAtom.mk 7 10 .Default .Default 0 none true] =
      unionOf [DisplayAtom.mk 0 10 .Default .Default 0 none true] :=
  (C1_partition_invariants 0 10 [⟨0, 10, .Default, .Default, 0, none, true⟩]
    (by decide)).2.2.2 [⟨3, 7⟩] _ rfl

/-- Claim C3: under the partition invariants and well-formed selections,
after the selection highlighter runs every covered buffer position inside
some selection lies in an atom carrying the underline attribute; every
output atom is a fragment of an input atom with unchanged foreground,
background and content, split only at input-atom boundaries or selection
boundaries; and on one atom `[0,10)` with the single selection `[3,7)` the
result is exactly the three ranges `[0,3)`, `[3,7)`, `[7,10)` with only
the middle one underlined. -/
theorem C3_selection_underline (lo hi : Nat) (atoms : List DisplayAtom)
    (sels : List Selection) (hch : chainedB lo atoms hi = true)
    (_hwf : ∀ s ∈ sels, s.sbegin ≤ s.send) :
    (∀ out, highlight_selections sels atoms = .ok out →
      (∀ x, lo ≤ x → x < hi → (∃ s ∈ sels, s.sbegin ≤ x ∧ x < s.send) →
        ∃ b ∈ out, b.abegin ≤ x ∧ x < b.aend ∧ b.attr.testBit 0 = true) ∧
      (∀ b ∈ out, ∃ a ∈ atoms, a.abegin ≤ b.abegin ∧ b.aend ≤ a.aend ∧
        b.fg = a.fg ∧ b.bg = a.bg ∧ b.content = a.content ∧
        (b.abegin = a.abegin ∨ selBound sels b.abegin) ∧
        (b.aend = a.aend ∨ selBound sels b.aend))) ∧
    highlight_selections [⟨3, 7⟩] [⟨0, 10, .Default, .Default, 0, none, true⟩] =
      .ok [⟨0, 3, .Default, .Default, 0, none, true⟩,
        ⟨3, 7, .Default, .Default, 1, none, true⟩,
        ⟨7, 10, .Default, .Default, 0, none, true⟩] := by
  constructor
  · intro out hrun
    rw [highlight_selections] at hrun
    constructor
    · intro x hx1 hx2 hx3
      refine sweep_cover _ atoms (sortSels sels) lo out hch sortSels_sorted hrun x hx1 hx2 ?_
      obtain ⟨s, hs, hsx⟩ := hx3
      exact ⟨s, mem_sortSels.mpr hs, hsx⟩
    · intro b hb
      obtain ⟨a, ha, h1, h2, h3, h4, h5, h6, h7⟩ := sweep_frag _ atoms (sortSels sels) out hrun b hb
      refine ⟨a, ha, h1, h2, h3, h4, h5, ?_, ?_⟩
      · rcases h6 with h | ⟨u, hu, hx⟩
        · exact Or.inl h
        · exact Or.inr ⟨u, mem_sortSels.mp hu, hx⟩
      · rcases h7 with h | ⟨u, hu, hx⟩
        · exact Or.inl h
        · exact Or.inr ⟨u, mem_sortSels.mp hu, hx⟩
  · rfl

theorem C3_selection_underline_witness :
    ∃ b ∈ [DisplayAtom.mk 0 3 .Default .Default 0 none true,
      DisplayAtom.mk 3 7 .Default .Default 1 none true,
      DisplayAtom.mk 7 10 .Default .Default 0 none true],
      b.abegin ≤ 5 ∧ 5 < b.aend ∧ b.attr.testBit 0 = true := by
  have h := (C3_selection_underline 0 10 [⟨0, 10, .Default, .Default, 0, none, true⟩]
    [⟨3, 7⟩] (by decide) (by decide)).1 _ rfl
  exact h.1 5 (by decide) (by decide) ⟨⟨3, 7⟩, by decide, by decide, by decide⟩

/-- Claim C7: for every atom `[ab, ae)` with `ab < ae` and every selection
`[sb, se)` with `sb ≤ se`, at least one of the six case conditions of the
selection highlighter's sweep holds, so the final `assert(false)` branch
is unreachable: the highlighter never returns the assertion-failure
outcome, whatever the inputs. -/
theorem C7_six_cases_total :
    (∀ (a : DisplayAtom) (s : Selection), a.abegin < a.aend → s.sbegin ≤ s.send →
      (caseOf a s).isSome = true) ∧
    (∀ sels atoms, highlight_selections sels atoms ≠ .error .assertFail) := by
  constructor
  · intro a s _ _
    cases hc : caseOf a s with
    | none => exact absurd hc (caseOf_ne_none a s)
    | some c => rfl
  · intro sels atoms
    rw [highlight_selections]
    exact sweep_noAssert _ atoms (sortSels sels)

theorem C7_six_cases_total_witness :
    (caseOf ⟨0, 10, .Default, .Default, 0, none, true⟩ ⟨3, 7⟩).isSome = true :=
  C7_six_cases_total.1 ⟨0, 10, .Default, .Default, 0, none, true⟩ ⟨3, 7⟩
    (by decide) (by decide)

/-- Claim C10: if every input selection is non-empty (`begin < end`), every
`split` call made by the selection highlighter passes a position strictly
inside the atom being split, so the run never fails with a violated
interior-position precondition; with the data model's general
`begin ≤ end` selections this fails: the zero-width selection `[4,4)`
strictly inside the atom `[0,10)` drives case 2's second split to the new
atom's begin, which violates the precondition. -/
theorem C10_split_preconditions :
    (∀ (sels : List Selection) (atoms : List DisplayAtom),
      (∀ s ∈ sels, s.sbegin < s.send) →
      highlight_selections sels atoms ≠ .error .notInterior) ∧
    highlight_selections [⟨4, 4⟩] [⟨0, 10, .Default, .Default, 0, none, true⟩] =
      .error .notInterior := by
  constructor
  · intro sels atoms hne
    rw [highlight_selections]
    refine sweep_notInterior _ atoms (sortSels sels) ?_
    intro s hs
    exact hne s (mem_sortSels.mp hs)
  · rfl

theorem C10_split_preconditions_witness :
    highlight_selections [⟨3, 7⟩] [⟨0, 10, .Default, .Default, 0, none, true⟩] ≠
      .error .notInterior :=
  C10_split_preconditions.1 [⟨3, 7⟩] [⟨0, 10, .Default, .Default, 0, none, true⟩]
    (by decide)

theorem atom_containing_ne {mb me : Nat} (hmb : mb ≤ me) :
    ∀ {atoms : List DisplayAtom},
      atom_containing atoms 0 mb ≠ atom_containing atoms 0 me →
      ∃ a rest, atoms.dropWhile (fun x => x.aend ≤ mb) = a :: rest ∧ a.aend ≤ me := by
  intro atoms
  induction atoms with
  | nil => intro h; exact absurd rfl h
  | cons a rest ih =>
    intro h
    by_cases h1 : a.aend ≤ mb
    · have h2 : a.aend ≤ me := le_trans h1 hmb
      have hd : (a :: rest).dropWhile (fun x => x.aend ≤ mb) =
          rest.dropWhile (fun x => x.aend ≤ mb) := by
        simp [List.dropWhile_cons, h1]
      have hne2 : atom_containing rest 0 mb ≠ atom_containing rest 0 me := by
        intro heq
        apply h
        simp only [atom_containing, List.drop_zero] at heq ⊢
        simp [List.takeWhile_cons, h1, h2]
        omega
      obtain ⟨b, rest2, hd2, hble⟩ := ih hne2
      exact ⟨b, rest2, hd ▸ hd2, hble⟩
    · refine ⟨a, rest, by simp [List.dropWhile_cons, h1], ?_⟩
      by_contra h2
      apply h
      simp only [atom_containing, List.drop_zero]
      simp [List.takeWhile_cons, h1, h2]

/-- Claim C4: a regex match `[mbegin, mend)` whose begin and end positions
lie in different atoms is silently dropped by the regex colorizer: no
split is performed for it, no color is applied, the atom sequence is
unchanged by that match, and no failure is raised. -/
theorem C4_spanning_match_dropped (atoms : List DisplayAtom) (mb me : Nat) (c : Color)
    (hmb : mb ≤ me)
    (hne : atom_containing atoms 0 mb ≠ atom_containing atoms 0 me) :
    colorize_regex atoms [(mb, me)] c = .ok atoms := by
  obtain ⟨a, rest, hdrop, hble⟩ := atom_containing_ne hmb hne
  rw [colorize_regex, colorizeGo]
  simp only [hdrop]
  rw [if_neg (by omega : ¬ me < a.aend), colorizeGo, List.nil_append, ← hdrop,
    List.takeWhile_append_dropWhile]

theorem C4_spanning_match_dropped_witness :
    colorize_regex [DisplayAtom.mk 0 2 .Default .Default 0 none true,
      DisplayAtom.mk 2 5 .Default .Default 0 none true] [(1, 4)] .Red =
      .ok [DisplayAtom.mk 0 2 .Default .Default 0 none true,
        DisplayAtom.mk 2 5 .Default .Default 0 none true] :=
  C4_spanning_match_dropped _ 1 4 .Red (by decide) (by decide)

/-- Claim C5: a regex match `[mbegin, mend)` fully contained in one atom
(that is, the `atom_containing` scans for both endpoints stop at the same
atom `a`, and the match is non-empty) makes the colorizer split that atom
at `mbegin` exactly when `mbegin` is not already the atom's begin, then at
`mend`, producing an atom whose range is exactly `[mbegin, mend)` with its
foreground set to the given color and its background, attributes and
content inherited unchanged. -/
theorem C5_contained_match_colored (atoms rest : List DisplayAtom) (a : DisplayAtom)
    (mb me : Nat) (c : Color)
    (hdrop : atoms.dropWhile (fun x => x.aend ≤ mb) = a :: rest)
    (hcont : me < a.aend) (hab : a.abegin ≤ mb) (hlt : mb < me)
    (hsp : a.splitable = true) :
    colorize_regex atoms [(mb, me)] c =
      .ok (atoms.takeWhile (fun x => x.aend ≤ mb) ++
        (if a.abegin = mb then [] else [{ a with aend := mb }]) ++
        { a with abegin := mb, aend := me, fg := c } ::
        { a with abegin := me } :: rest) := by
  have hsb : splitBefore a mb =
      .ok ((if a.abegin = mb then [] else [{ a with aend := mb }]),
        { a with abegin := mb }) := by
    by_cases heq : a.abegin = mb
    · rw [splitBefore, if_pos heq, if_pos heq]
      cases a
      simp_all
    · rw [splitBefore, if_neg heq, splitAtom,
        if_pos ⟨lt_of_le_of_ne hab heq, by omega⟩]
      simp [hsp, heq]
  have hsa : splitAfter { a with abegin := mb } me =
      .ok ({ a with abegin := mb, aend := me }, [{ a with abegin := me }]) := by
    rw [splitAfter, if_neg (by simp; omega), splitAtom, if_pos ⟨by simpa using hlt, by simpa using hcont⟩]
    simp [hsp]
  rw [colorize_regex, colorizeGo]
  simp only [hdrop]
  rw [if_pos hcont]
  simp only [hsb, hsa, colorizeGo]
  simp

theorem C5_contained_match_colored_witness :
    colorize_regex [DisplayAtom.mk 0 10 .Default .Default 0 none true] [(2, 5)] .Red =
      .ok [DisplayAtom.mk 0 2 .Default .Default 0 none true,
        DisplayAtom.mk 2 5 .Red .Default 0 none true,
        DisplayAtom.mk 5 10 .Default .Default 0 none true] := by
  have h := C5_contained_match_colored [⟨0, 10, .Default, .Default, 0, none, true⟩] []
    ⟨0, 10, .Default, .Default, 0, none, true⟩ 2 5 .Red rfl (by decide) (by decide)
    (by decide) rfl
  simpa using h

/-- Claim C6: every tab character at a covered buffer position `p` is
isolated by `expand_tabulations` into its own atom `[p, p+1)` whose
content is replaced by exactly `8 - (c % 8)` space characters, where `c`
is the visual column of `p` obtained by replaying the raw characters from
the start of `p`'s line (a plain character advances the column by 1, an
earlier tab advances it to the next multiple of 8); in particular, for
the line `a TAB b TAB c` both tabs are replaced by 7 spaces. -/
theorem C6_tab_expansion (lo hi : Nat) (buf : List Char) (atoms : List DisplayAtom)
    (hch : chainedB lo atoms hi = true) :
    (∀ out, expand_tabulations buf atoms = .ok out →
      ∀ p, lo ≤ p → p < hi → buf.getD p ' ' = '\t' →
      ∃ b ∈ out, b.abegin = p ∧ b.aend = p + 1 ∧
        b.content = some (List.replicate (8 - columnOf buf p % 8) ' ')) ∧
    expand_tabulations ['a', '\t', 'b', '\t', 'c']
      [⟨0, 5, .Default, .Default, 0, none, true⟩] =
      .ok [⟨0, 1, .Default, .Default, 0, none, true⟩,
        ⟨1, 2, .Default, .Default, 0, some (List.replicate 7 ' '), true⟩,
        ⟨2, 3, .Default, .Default, 0, none, true⟩,
        ⟨3, 4, .Default, .Default, 0, some (List.replicate 7 ' '), true⟩,
        ⟨4, 5, .Default, .Default, 0, none, true⟩] := by
  constructor
  · intro out hrun p hp1 hp2 hp3
    rw [expand_tabulations] at hrun
    have h := expandTabsGo_tabs _ atoms lo out hch hrun p hp1 hp2 hp3
    simpa [spacesFor] using h
  · rfl

theorem C6_tab_expansion_witness :
    ∃ b ∈ [DisplayAtom.mk 0 1 .Default .Default 0 none true,
      DisplayAtom.mk 1 2 .Default .Default 0 (some (List.replicate 7 ' ')) true,
      DisplayAtom.mk 2 3 .Default .Default 0 none true,
      DisplayAtom.mk 3 4 .Default .Default 0 (some (List.replicate 7 ' ')) true,
      DisplayAtom.mk 4 5 .Default .Default 0 none true],
      b.abegin = 3 ∧ b.aend = 4 ∧
        b.content = some (List.replicate (8 - columnOf ['a', '\t', 'b', '\t', 'c'] 3 % 8) ' ') := by
  have h := (C6_tab_expansion 0 5 ['a', '\t', 'b', '\t', 'c']
    [⟨0, 5, .Default, .Default, 0, none, true⟩] (by decide)).1 _ rfl 3
    (by decide) (by decide) (by decide)
  exact h

/-- Claim C8 counterexample: the claim says every inserted gutter atom sits
at its line's start, but the loop of `show_line_numbers` never resets
`coord.column` — it reuses the column of the display's first covered
position for every subsequent line (lines 107, 111, 113).  On the buffer
`"ab\ncd"` with the display range `[1, 5)` (starting mid-line, at
column 1), the gutter carrying line number 2 is inserted at position 4,
while that line starts at position 3. -/
theorem C8_gutter_not_at_line_start :
    show_line_numbers ['a', 'b', '\n', 'c', 'd']
      [⟨1, 5, .Default, .Default, 0, none, true⟩] =
      .ok [gutterAtom 1 1, ⟨1, 4, .Default, .Default, 0, none, true⟩,
        gutterAtom 4 2, ⟨4, 5, .Default, .Default, 0, none, true⟩] ∧
    lineStartOfLine ['a', 'b', '\n', 'c', 'd'] 1 = 3 ∧
    (gutterAtom 4 2).abegin = 4 :=
  ⟨rfl, rfl, rfl⟩

/-- Claim C8 (amended): every atom the line-number filter adds (the new
zero-width atoms of the output) is a gutter atom for some buffer line
between the line of the first covered position and the line of the last
covered position, styled black on white, whose content is the 1-based
line number formatted `"%3d "`; it sits at that line's start offset by
the column of the display's first covered position (the loop never
resets `coord.column`), which is the line's start exactly when the
display range begins at column 0.  In particular line index 0 renders
exactly `"  1 "` and line index 98 renders `" 99 "`. -/
theorem C8_line_number_gutter (buf : List Char) (a0 : DisplayAtom)
    (atoms out : List DisplayAtom)
    (hrun : show_line_numbers buf (a0 :: atoms) = .ok out) :
    (∀ b ∈ out, b.abegin = b.aend → b ∉ a0 :: atoms →
      ∃ l, lineAt buf a0.abegin ≤ l ∧
        l ≤ lineAt buf (((a0 :: atoms).getLast (List.cons_ne_nil a0 atoms)).aend - 1) ∧
        b = gutterAtom
          (lineStartOfLine buf l + (a0.abegin - lineStartPos buf a0.abegin)) (l + 1)) ∧
    fmt3d 1 = [' ', ' ', '1', ' '] ∧ fmt3d 99 = [' ', '9', '9', ' '] := by
  refine ⟨?_, rfl, rfl⟩
  intro b hb hzero hnotin
  rw [show_line_numbers] at hrun
  rcases slnLoop_new_atoms _ (a0 :: atoms) _ _ out hrun b hb hzero with
    hmem | ⟨l, hl1, hl2, hl3⟩
  · exact absurd hmem hnotin
  · refine ⟨l, hl1, by omega, ?_⟩
    rw [hl3, iterator_at]

theorem C8_line_number_gutter_witness :
    ∃ l, lineAt ['a', 'b', '\n', 'c', 'd'] 1 ≤ l ∧
      l ≤ lineAt ['a', 'b', '\n', 'c', 'd']
        ((([⟨1, 5, .Default, .Default, 0, none, true⟩] :
          List DisplayAtom).getLast (by simp)).aend - 1) ∧
      gutterAtom 4 2 = gutterAtom
        (lineStartOfLine ['a', 'b', '\n', 'c', 'd'] l +
          (1 - lineStartPos ['a', 'b', '\n', 'c', 'd'] 1)) (l + 1) := by
  have h := (C8_line_number_gutter ['a', 'b', '\n', 'c', 'd']
    ⟨1, 5, .Default, .Default, 0, none, true⟩ []
    [gutterAtom 1 1, ⟨1, 4, .Default, .Default, 0, none, true⟩,
      gutterAtom 4 2, ⟨4, 5, .Default, .Default, 0, none, true⟩] rfl).1
    (gutterAtom 4 2) (by decide) rfl (by decide)
  exact h

/-- Claim C9 counterexample: running the numbering filter a second time on
the same display buffer DOES produce a duplicate gutter atom.  The gutter
atom inserted by the first run is zero-width, so it contains no position;
the second run's `atom_containing` therefore finds the content atom again,
which begins exactly at the line start, and a second identical gutter atom
is inserted (two copies in the output). -/
theorem C9_rerun_duplicates_gutter :
    show_line_numbers ['a'] [⟨0, 1, .Default, .Default, 0, none, true⟩] =
      .ok [gutterAtom 0 1, ⟨0, 1, .Default, .Default, 0, none, true⟩] ∧
    show_line_numbers ['a'] [gutterAtom 0 1, ⟨0, 1, .Default, .Default, 0, none, true⟩] =
      .ok [gutterAtom 0 1, gutterAtom 0 1, ⟨0, 1, .Default, .Default, 0, none, true⟩] ∧
    [gutterAtom 0 1, gutterAtom 0 1,
      (⟨0, 1, .Default, .Default, 0, none, true⟩ : DisplayAtom)].count (gutterAtom 0 1) = 2 :=
  ⟨rfl, rfl, by decide⟩

/-- Claim C9 (amended): when the atom containing a line's start position
does not begin exactly there and is not splitable, `show_line_numbers`
silently skips that line — no split, no insertion, the buffer is
unchanged by that line's iteration and no failure is raised.  (The
no-duplicate-gutter consequence claimed from this is false, see the
counterexample: a second run duplicates every gutter because the
zero-width gutter atom contains no position.) -/
theorem C9_unsplitable_line_skipped (buf : List Char) (atoms : List DisplayAtom)
    (line col0 : Nat) (a : DisplayAtom) (rest : List DisplayAtom)
    (hdrop : atoms.dropWhile (fun x => x.aend ≤ iterator_at buf line col0) = a :: rest)
    (hne : a.abegin ≠ iterator_at buf line col0)
    (hsp : a.splitable = false) :
    slnStep buf atoms line col0 = .ok atoms := by
  rw [slnStep]
  simp only [hdrop]
  rw [if_neg hne, hsp]
  simp

theorem C9_unsplitable_line_skipped_witness :
    slnStep ['x', '\n', 'y']
      [⟨0, 5, .Default, .Default, 0, some [' '], false⟩] 1 0 =
      .ok [⟨0, 5, .Default, .Default, 0, some [' '], false⟩] :=
  C9_unsplitable_line_skipped ['x', '\n', 'y'] _ 1 0
    ⟨0, 5, .Default, .Default, 0, some [' '], false⟩ [] rfl (by decide) rfl

/-- Claim C2 counterexample: the spec says `split` returns an iterator to
the second (right) atom, and the claim concludes that at every call site
the returned iterator designates the right part.  Running the selection
highlighter's call sites under that convention (`highlight_selections_R`)
on the spec's own canonical example — one atom `[0,10)`, one selection
`[3,7)` — makes case 2's `++atom_it` step move past the split-off right
part onto the end iterator, which the second split then dereferences: the
run fails, while the left-returning convention produces exactly the
three-range result the spec mandates. -/
theorem C2_split_right_refuted :
    highlight_selections_R [⟨3, 7⟩] [⟨0, 10, .Default, .Default, 0, none, true⟩] =
      .error .deref ∧
    highlight_selections [⟨3, 7⟩] [⟨0, 10, .Default, .Default, 0, none, true⟩] =
      .ok [⟨0, 3, .Default, .Default, 0, none, true⟩,
        ⟨3, 7, .Default, .Default, 1, none, true⟩,
        ⟨7, 10, .Default, .Default, 0, none, true⟩] :=
  ⟨rfl, rfl⟩

/-- Claim C2 (amended): for every atom and every position strictly inside
its range, `split` replaces the atom with the two atoms
`[begin, position)` and `[position, end)`, each inheriting the original's
style and content override, and returns an iterator to the FIRST (left)
atom `[begin, position)`; the call sites in the filters increment the
returned iterator when they need the right part. -/
theorem C2_split_returns_left (atoms : List DisplayAtom) (i p : Nat) (a : DisplayAtom)
    (ha : atoms[i]? = some a) (h1 : a.abegin < p) (h2 : p < a.aend)
    (h3 : a.splitable = true) :
    splitL atoms i p =
      .ok (atoms.take i ++ { a with aend := p } :: { a with abegin := p } ::
        atoms.drop (i + 1), i) ∧
    (atoms.take i ++ { a with aend := p } :: { a with abegin := p } ::
      atoms.drop (i + 1))[i]? = some { a with aend := p } ∧
    (atoms.take i ++ { a with aend := p } :: { a with abegin := p } ::
      atoms.drop (i + 1))[i + 1]? = some { a with abegin := p } := by
  have hilen : i < atoms.length := by
    by_contra hge
    rw [List.getElem?_eq_none (by omega)] at ha
    cases ha
  have hlen : (atoms.take i).length = i := by
    rw [List.length_take]
    omega
  refine ⟨?_, ?_, ?_⟩
  · rw [splitL]
    simp only [ha]
    rw [splitAtom, if_pos ⟨h1, h2⟩]
    simp [h3]
  · rw [List.getElem?_append_right (by omega), hlen, Nat.sub_self]
    rfl
  · rw [List.getElem?_append_right (by omega), hlen]
    have hone : i + 1 - i = 1 := by omega
    rw [hone]
    simp

theorem C2_split_returns_left_witness :
    splitL [⟨0, 10, .Default, .Default, 0, none, true⟩] 0 3 =
      .ok ([⟨0, 3, .Default, .Default, 0, none, true⟩,
        ⟨3, 10, .Default, .Default, 0, none, true⟩], 0) := by
  have h := C2_split_returns_left [⟨0, 10, .Default, .Default, 0, none, true⟩] 0 3
    ⟨0, 10, .Default, .Default, 0, none, true⟩ rfl (by decide) (by decide) rfl
  simpa using h.1

end Kakoune
